import Mathlib

/-!
Verification development for the tiddlyflare storage and coordination engine
(`src/durable-objects.ts`, `src/shared.ts`).

The TypeScript source is shallowly embedded: byte buffers become `List Nat`,
the `wiki_versions` SQLite table becomes a list of rows with the
`INSERT OR REPLACE` primary-key semantics made explicit, and each Durable
Object method becomes a pure state-transition function on a record capturing
the fields of the corresponding class instance together with its private
SQLite tables.
-/

namespace Tiddlyflare

/-- Byte buffers (JS `Uint8Array` / `ArrayBuffer`) are modelled as lists of
naturals; only lengths and element order matter to the verified properties. -/
abbrev Bytes := List Nat

/-- Constant `CHUNK_SIZE_MAX` from durable-objects.ts: 1.5MB per chunk. -/
def CHUNK_SIZE_MAX : Nat := 1500000

/-- Constant `BYTE_SIZE_ATONCE_THRESHOLD` from durable-objects.ts: anything
under 5MB is handled without streaming. -/
def BYTE_SIZE_ATONCE_THRESHOLD : Nat := 5000000

/-- Constant `RETAINED_VERSIONS_NUM` from durable-objects.ts: retain only the
latest 10 versions. -/
def RETAINED_VERSIONS_NUM : Nat := 10

/-- Embedding of `chunkify(bb, chunkSz)` from shared.ts.  The JS allocates
`Math.ceil(bb.length / chunkSz)` slots and the loop sets
`chunks[i] = bb.subarray(readidx, min(readidx + chunkSz, bb.length))` with
`readidx` equal to `i * chunkSz` at iteration `i`, i.e. slice `i` is the
(clamped) `chunkSz`-byte window starting at `i * chunkSz`.  Natural-number
ceiling division `(n + chunkSz - 1) / chunkSz` matches `Math.ceil` for the
positive `chunkSz` used at every call site (`CHUNK_SIZE_MAX`). -/
def chunkify (bb : Bytes) (chunkSz : Nat) : List Bytes :=
  (List.range ((bb.length + chunkSz - 1) / chunkSz)).map
    (fun i => (bb.drop (i * chunkSz)).take chunkSz)

/-- Embedding of `mergeArrayBuffers(chunks)` from shared.ts: allocate the
total size and copy each buffer in order, i.e. concatenation. -/
def mergeArrayBuffers (chunks : List Bytes) : Bytes :=
  chunks.foldl (fun acc b => acc ++ b) []

/-- A row of the `wiki_versions` table.  The streaming ingestion inserts rows
without the `chunksTotal` column, leaving it SQL NULL, hence `Option Nat`. -/
structure VersionRow where
  wikiId : String
  tsMs : Nat
  src : Bytes
  chunkIdx : Nat
  chunksTotal : Option Nat
deriving DecidableEq, Repr

/-- The SQL condition `chunkIdx = chunksTotal`: with a NULL `chunksTotal` the
comparison is NULL, which filters the row out, so the condition holds exactly
when `chunksTotal` is present and equals `chunkIdx`. -/
def VersionRow.isTerminal (r : VersionRow) : Bool :=
  r.chunksTotal = some r.chunkIdx

/-- `INSERT OR REPLACE INTO wiki_versions` under the primary key
`(wikiId, tsMs, chunkIdx)`: drop any row with the same key, add the new row. -/
def insertOrReplace (tbl : List VersionRow) (r : VersionRow) : List VersionRow :=
  tbl.filter (fun x =>
    !(x.wikiId == r.wikiId && x.tsMs == r.tsMs && x.chunkIdx == r.chunkIdx)) ++ [r]

/-- Rows of `wiki_versions` matching `WHERE wikiId = ? AND chunkIdx = chunksTotal`. -/
def terminalRows (tbl : List VersionRow) (w : String) : List VersionRow :=
  tbl.filter (fun r => r.wikiId == w && r.isTerminal)

/-- Rows of `wiki_versions` matching `WHERE wikiId = ? AND tsMs = ?`. -/
def rowsAt (tbl : List VersionRow) (w : String) (ts : Nat) : List VersionRow :=
  tbl.filter (fun r => r.wikiId == w && r.tsMs == ts)

/-- Insert a row into a list kept in descending `tsMs` order (helper for the
`ORDER BY tsMs DESC` embedding). -/
def insertDesc (x : Nat) : List Nat → List Nat
  | [] => [x]
  | y :: ys => if y ≤ x then x :: y :: ys else y :: insertDesc x ys

/-- Sort a list of timestamps in descending order (`ORDER BY tsMs DESC`). -/
def sortDesc : List Nat → List Nat
  | [] => []
  | x :: xs => insertDesc x (sortDesc xs)

/-- Insert a row into a list kept in ascending `chunkIdx` order (helper for
the `ORDER BY chunkIdx ASC` embedding). -/
def insertAscByIdx (r : VersionRow) : List VersionRow → List VersionRow
  | [] => [r]
  | x :: xs => if r.chunkIdx ≤ x.chunkIdx then r :: x :: xs else x :: insertAscByIdx r xs

/-- Sort rows by ascending `chunkIdx` (`ORDER BY chunkIdx ASC`). -/
def sortByChunkIdx : List VersionRow → List VersionRow
  | [] => []
  | x :: xs => insertAscByIdx x (sortByChunkIdx xs)

/-- Embedding of the query
`SELECT tsMs, chunksTotal FROM wiki_versions WHERE wikiId = ? AND chunkIdx = chunksTotal ORDER BY tsMs DESC LIMIT 1`
followed by `.one()`: the `(tsMs, chunksTotal)` of the terminal row with the
greatest timestamp, or `none` when no terminal row exists (`.one()` throws).
`lciStep` is the max-picking step of that selection. -/
def lciStep (acc : Option (Nat × Nat)) (r : VersionRow) : Option (Nat × Nat) :=
  match acc with
  | none => some (r.tsMs, r.chunkIdx)
  | some (t, c) => if t < r.tsMs then some (r.tsMs, r.chunkIdx) else some (t, c)

/-- The fold over the terminal rows realizing the previous query. -/
def latestCompleteInfo (tbl : List VersionRow) (w : String) : Option (Nat × Nat) :=
  (terminalRows tbl w).foldl lciStep none

/-- Embedding of the retention query
`SELECT DISTINCT tsMs FROM wiki_versions WHERE wikiId = ? AND chunkIdx = chunksTotal ORDER BY tsMs DESC LIMIT ?`:
the distinct complete-version timestamps, newest first, at most
`RETAINED_VERSIONS_NUM` of them. -/
def retainedTss (tbl : List VersionRow) (w : String) : List Nat :=
  (sortDesc ((terminalRows tbl w).map (fun r => r.tsMs)).dedup).take RETAINED_VERSIONS_NUM

/-- Embedding of the retention GC transaction at the end of `WikiDO.upsert`:
list up to 10 distinct complete-version timestamps newest first; if fewer than
10 exist, do nothing; otherwise
`DELETE FROM wiki_versions WHERE wikiId = ? AND tsMs < ?` with the last listed
timestamp (the 10th most recent). -/
def gc (tbl : List VersionRow) (w : String) : List VersionRow :=
  let tss := retainedTss tbl w
  if tss.length < RETAINED_VERSIONS_NUM then tbl
  else
    match tss.getLast? with
    | none => tbl
    | some cutoff => tbl.filter (fun r => !(r.wikiId == w && decide (r.tsMs < cutoff)))

/-- The `wiki_info` row of a WikiDO (at most one row is ever written). -/
structure WikiInfoRow where
  wikiId : String
  tenantId : String
  name : String
  wikiType : String
deriving DecidableEq, Repr

/-- State of one `WikiDO` instance: the in-memory fields `fileSrc`, `wikiId`,
`tenantId`, and the private SQLite tables `wiki_info` and `wiki_versions`. -/
structure WikiState where
  fileSrc : Option Bytes
  wikiId : String
  tenantId : String
  info : Option WikiInfoRow
  versions : List VersionRow
deriving DecidableEq, Repr

/-- Write the buffered-path chunk rows: for `i = 0 .. chunks.length - 1`,
`INSERT OR REPLACE INTO wiki_versions VALUES (wikiId, tsMs, chunks[i], i + 1, chunks.length)`.
Used by `WikiDO.create` and by the buffered branch of `WikiDO.upsert`. -/
def writeChunksBuffered (tbl : List VersionRow) (w : String) (ts : Nat)
    (chunks : List Bytes) : List VersionRow :=
  (chunks.enumFrom 1).foldl
    (fun acc ic => insertOrReplace acc ⟨w, ts, ic.2, ic.1, some chunks.length⟩) tbl

/-- Embedding of the `while (true)` streaming loop of `WikiDO.upsert`.

The BYOB reader `readAtLeast(CHUNK_SIZE_MAX, new Uint8Array(CHUNK_SIZE_MAX))`
returns exactly `CHUNK_SIZE_MAX` bytes while at least that many remain; it
returns fewer bytes only when the stream is exhausted, and the following read
reports `done` with an empty value.  Consequently each flush of the
accumulation buffer writes either exactly `CHUNK_SIZE_MAX` bytes (stream not
yet exhausted) or all remaining bytes (fewer than `CHUNK_SIZE_MAX`, possibly
zero) on the `done` iteration.  Each flush is
`INSERT OR REPLACE INTO wiki_versions(wikiId, tsMs, src, chunkIdx) VALUES (...)`
with `chunkIdx` pre-incremented and no `chunksTotal` column (SQL NULL).
Returns the updated table and the last `chunkIdx` used. -/
def streamLoop (w : String) (ts : Nat) (remaining : Bytes) (chunkIdx : Nat)
    (tbl : List VersionRow) : List VersionRow × Nat :=
  if h : CHUNK_SIZE_MAX ≤ remaining.length then
    streamLoop w ts (remaining.drop CHUNK_SIZE_MAX) (chunkIdx + 1)
      (insertOrReplace tbl ⟨w, ts, remaining.take CHUNK_SIZE_MAX, chunkIdx + 1, none⟩)
  else
    (insertOrReplace tbl ⟨w, ts, remaining, chunkIdx + 1, none⟩, chunkIdx + 1)
termination_by remaining.length
decreasing_by
  simp only [List.length_drop]
  exact Nat.sub_lt (Nat.lt_of_lt_of_le (by decide) h) (by decide)

/-- JS truthiness of the buffered-path condition
`contentLength && contentLength < BYTE_SIZE_ATONCE_THRESHOLD`:
an absent hint is `undefined` (falsy) and a zero hint is also falsy, so the
buffered branch runs only for a present, non-zero hint below the threshold. -/
def bufferedPathTaken : Option Nat → Bool
  | none => false
  | some n => n != 0 && decide (n < BYTE_SIZE_ATONCE_THRESHOLD)

/-- Embedding of `WikiDO.upsert(wikiId, bytesStream, contentLength?)`.
The byte stream is modelled by the full byte sequence `B` it delivers, and
`Date.now()` by the explicit argument `tsMs`.  The in-memory cache is reset
first; then either the buffered path (read all, chunkify, write every chunk
row with `chunksTotal`, repopulate the cache) or the streaming path (the
`streamLoop` flushes followed by the zero-length terminal row carrying
`chunksTotal = chunkIdx`) runs; finally the retention GC transaction runs. -/
def WikiState.upsert (s : WikiState) (w : String) (B : Bytes)
    (contentLength : Option Nat) (tsMs : Nat) : WikiState :=
  let s0 : WikiState := { s with fileSrc := none }
  let s1 : WikiState :=
    if bufferedPathTaken contentLength then
      let chunks := chunkify B CHUNK_SIZE_MAX
      { s0 with
        versions := writeChunksBuffered s0.versions w tsMs chunks
        fileSrc := some B }
    else
      let ln := streamLoop w tsMs B 0 s0.versions
      let chunkIdx := ln.2 + 1
      { s0 with
        versions := insertOrReplace ln.1 ⟨w, tsMs, [], chunkIdx, some chunkIdx⟩ }
  { s1 with versions := gc s1.versions w }

/-- Outcome of `WikiDO.getFileSrc` / `_makeStreamResponse`:
`badRequest` is the 400 response for an unbound or mismatched wiki id;
`noCompleteVersion` is the exception thrown by `.one()` when no terminal row
exists; `buffered` serves a single materialized buffer (the in-memory cache or
a freshly merged one); `streamed` serves a lazy, cancellable sequence of chunk
buffers pulled from the SQL cursor. -/
inductive ReadResult where
  | badRequest
  | noCompleteVersion
  | buffered (bytes : Bytes)
  | streamed (chunks : List Bytes)
deriving DecidableEq, Repr

/-- The full byte content delivered by a successful response, i.e. the
concatenation of everything enqueued when the consumer does not cancel. -/
def ReadResult.servedBytes : ReadResult → Option Bytes
  | .badRequest => none
  | .noCompleteVersion => none
  | .buffered bytes => some bytes
  | .streamed chunks => some chunks.flatten

/-- Embedding of `WikiDO.getFileSrc(wikiId)`: the identity guard, the
in-memory cache fast path, the latest-complete-version lookup, the chunk
cursor ordered by `chunkIdx`, and the at-once-versus-streaming decision
`chunksInfo.chunksTotal * CHUNK_SIZE_MAX < BYTE_SIZE_ATONCE_THRESHOLD`,
which on the at-once side merges the chunks, repopulates the cache and serves
the single buffer.  Returns the resulting actor state and the response. -/
def WikiState.getFileSrc (s : WikiState) (w : String) : WikiState × ReadResult :=
  if s.wikiId = "" ∨ s.wikiId ≠ w then (s, .badRequest)
  else
    match s.fileSrc with
    | some bytes => (s, .buffered bytes)
    | none =>
      match latestCompleteInfo s.versions w with
      | none => (s, .noCompleteVersion)
      | some (ts, chunksTotal) =>
        let chunks := (sortByChunkIdx (rowsAt s.versions w ts)).map (fun r => r.src)
        if chunksTotal * CHUNK_SIZE_MAX < BYTE_SIZE_ATONCE_THRESHOLD then
          let bytes := mergeArrayBuffers chunks
          ({ s with fileSrc := some bytes }, .buffered bytes)
        else
          (s, .streamed chunks)

/-- Embedding of `WikiDO.create(tenantId, wikiId, name, wikiType)`.  The
template fetched from `ASSETS` is external input, modelled by `templateFetch`
(`none` when the fetch fails and the exception propagates).  An unrecognized
`wikiType` throws before anything is written.  On success the method sets the
in-memory `fileSrc`, writes the `wiki_info` row and all template chunk rows in
one transaction, binds the identity fields and returns `createdAtMs = tsMs`. -/
def WikiState.create (s : WikiState) (tenantId w name wikiType : String)
    (templateFetch : Option Bytes) (tsMs : Nat) : Option (WikiState × Nat) :=
  if wikiType = "tw5" then
    match templateFetch with
    | none => none
    | some template =>
      let chunks := chunkify template CHUNK_SIZE_MAX
      some
        ({ fileSrc := some template
           wikiId := w
           tenantId := tenantId
           info := some ⟨w, tenantId, name, wikiType⟩
           versions := writeChunksBuffered s.versions w tsMs chunks }, tsMs)
  else none

/-- Embedding of `WikiDO.deleteAll()`: clear the cache and identity fields and
wipe all storage (both private tables). -/
def WikiState.deleteAll (_s : WikiState) : WikiState :=
  { fileSrc := none, wikiId := "", tenantId := "", info := none, versions := [] }

/-- A row of the tenant index table `wikis` (after migration 2 added
`createdAtMs`), primary key `wikiId`. -/
structure TenantWikiRow where
  wikiId : String
  tenantId : String
  name : String
  wikiType : String
  createdAtMs : Nat
deriving DecidableEq, Repr

/-- State of one `TenantDO` instance: the in-memory `tenantId` binding
(the empty string when unbound) and the private tables `tenant_info`
(rows `(tenantId PRIMARY KEY, dataJson)`) and `wikis`. -/
structure TenantState where
  tenantId : String
  tenantInfo : List (String × String)
  wikis : List TenantWikiRow
deriving DecidableEq, Repr

/-- `INSERT INTO tenant_info VALUES (?, ?) ON CONFLICT DO NOTHING`: insert the
row unless a row with the same primary key `tenantId` already exists. -/
def insertTenantInfoNoConflict (tbl : List (String × String))
    (row : String × String) : List (String × String) :=
  if tbl.any (fun x => x.1 == row.1) then tbl else tbl ++ [row]

/-- `INSERT OR REPLACE INTO wikis` under primary key `wikiId`. -/
def insertOrReplaceWiki (tbl : List TenantWikiRow) (r : TenantWikiRow) :
    List TenantWikiRow :=
  tbl.filter (fun x => !(x.wikiId == r.wikiId)) ++ [r]

/-- Embedding of `TenantDO._initTables(tenantId)` (minus the schema-migration
side effect, which touches no `tenant_info` or `wikis` row).  When the actor
is already bound to a different tenant id it throws
`wrong tenant ID ... on the wrong Tenant ...`; the error case is returned as
`false` together with the (unchanged) state.  When unbound it inserts the
`tenant_info` row and binds the in-memory `tenantId`. -/
def TenantState.initTables (s : TenantState) (tenantId : String) :
    TenantState × Bool :=
  if s.tenantId ≠ "" then
    if s.tenantId ≠ tenantId then (s, false)
    else (s, true)
  else
    ({ s with
        tenantInfo := insertTenantInfoNoConflict s.tenantInfo (tenantId, "\x7b\x7d")
        tenantId := tenantId }, true)

/-- Embedding of `TenantDO.createWiki(tenantId, name, wikiType)`.  The fresh
Durable Object id allocated by `newUniqueId()` is the external input `wikiId`;
the target WikiDO instance is `ws`, and the template fetch inside its `create`
is `templateFetch`.  The call runs `_initTables`, then delegates to
`WikiDO.create`; only if that returns does it insert the index row
`(wikiId, tenantId, name, wikiType, createdAtMs)`.  Any throw (tenant
mismatch, invalid wikiType, failed template fetch) propagates before the
insert, reported here as `false` with both states as they were left. -/
def TenantState.createWiki (s : TenantState) (ws : WikiState)
    (tenantId name wikiType wikiId : String) (templateFetch : Option Bytes)
    (tsMs : Nat) : TenantState × WikiState × Bool :=
  let ib := s.initTables tenantId
  if ib.2 then
    match ws.create tenantId wikiId name wikiType templateFetch tsMs with
    | none => (ib.1, ws, false)
    | some (ws2, createdAtMs) =>
      ({ ib.1 with
          wikis := insertOrReplaceWiki ib.1.wikis
            ⟨wikiId, tenantId, name, wikiType, createdAtMs⟩ }, ws2, true)
  else (ib.1, ws, false)

/-- Embedding of `TenantDO.list()` up to the display mapping: the guard
returning the empty list for an unbound tenant actor, and otherwise
`SELECT * FROM wikis`.  The per-row mapping to `ApiWiki` (URL string
formatting) is presentation and out of scope per spec section 1. -/
def TenantState.list (s : TenantState) : List TenantWikiRow :=
  if s.tenantId = "" then [] else s.wikis

/-- Embedding of `TenantDO.deleteWiki(tenantId, wikiId)`: `_initTables`, then
`WikiDO.deleteAll()` on the target actor, then
`DELETE FROM wikis WHERE wikiId = ? AND tenantId = ?`, then `list()`. -/
def TenantState.deleteWiki (s : TenantState) (ws : WikiState)
    (tenantId wikiId : String) : TenantState × WikiState × Bool :=
  let ib := s.initTables tenantId
  if ib.2 then
    let ws2 := ws.deleteAll
    let s2 : TenantState :=
      { ib.1 with
          wikis := ib.1.wikis.filter
            (fun r => !(r.wikiId == wikiId && r.tenantId == tenantId)) }
    (s2, ws2, true)
  else (ib.1, ws, false)

/-- One schema migration, as declared at the `SchemaMigrations` construction
sites in durable-objects.ts. -/
structure SchemaMigration where
  idMonotonicInc : Nat
  description : String
  sqlText : String
deriving DecidableEq, Repr

/-- Persistent state of the migration runner: the high-water mark (highest
applied migration id, 0 when none was ever applied). -/
structure MigrationsState where
  lastAppliedId : Nat
deriving DecidableEq, Repr

/-- Insertion step for sorting migration ids in ascending order. -/
def insertAsc (x : Nat) : List Nat → List Nat
  | [] => [x]
  | y :: ys => if x ≤ y then x :: y :: ys else y :: insertAsc x ys

/-- Sort migration ids in ascending order. -/
def sortAsc : List Nat → List Nat
  | [] => []
  | x :: xs => insertAsc x (sortAsc xs)

/-- Modelled from the spec: the implementation file `sql-migrations.ts` is
absent from the repository; only its construction and `runAll()` call sites
appear.  Per spec section 4.1, `runAll()` takes the migrations whose
`idMonotonicInc` exceeds the stored high-water mark, in ascending id order,
and applies each inside one atomic unit; the high-water mark advances to a
migration's id only after that migration's statements succeed (modelled by
the `succeeds` oracle), and a failure stops the run with the mark left at the
last success.  Returns the new state and the list of applied migration ids
(each applied migration performs writes; an empty list means zero writes). -/
def runPending (succeeds : Nat → Bool) : List Nat → MigrationsState →
    MigrationsState × List Nat
  | [], s => (s, [])
  | id :: rest, s =>
    if succeeds id then
      let r := runPending succeeds rest ⟨id⟩
      (r.1, id :: r.2)
    else (s, [])

/-- Modelled from the spec: `SchemaMigrations.runAll()` — select the pending
migrations (id greater than the high-water mark), sort ascending, apply them
in order via `runPending`. -/
def runAll (migrations : List SchemaMigration) (succeeds : Nat → Bool)
    (s : MigrationsState) : MigrationsState × List Nat :=
  runPending succeeds
    (sortAsc ((migrations.map (fun m => m.idMonotonicInc)).filter
      (fun id => decide (s.lastAppliedId < id)))) s

/-- Characterization helper: the sequence of payloads flushed by the
streaming loop for a source delivering `B`: full `CHUNK_SIZE_MAX` slices while
at least that much remains, then one final slice with whatever is left
(possibly empty). -/
def streamChunks (B : Bytes) : List Bytes :=
  if h : CHUNK_SIZE_MAX ≤ B.length then
    B.take CHUNK_SIZE_MAX :: streamChunks (B.drop CHUNK_SIZE_MAX)
  else [B]
termination_by B.length
decreasing_by
  simp only [List.length_drop]
  exact Nat.sub_lt (Nat.lt_of_lt_of_le (by decide) h) (by decide)

/-- Characterization helper: the `wiki_versions` rows the streaming loop
appends for flushed payloads `cs`, with `chunkIdx` counting up from
`idx + 1` and no `chunksTotal`. -/
def mkStreamRows (w : String) (ts : Nat) : Nat → List Bytes → List VersionRow
  | _, [] => []
  | idx, c :: cs => ⟨w, ts, c, idx + 1, none⟩ :: mkStreamRows w ts (idx + 1) cs

/-- Characterization helper: the rows the buffered path appends for chunks
`cs`, all carrying `chunksTotal = total`, with `chunkIdx` counting up from
`idx + 1`. -/
def mkBufferedRows (w : String) (ts : Nat) (total : Nat) :
    Nat → List Bytes → List VersionRow
  | _, [] => []
  | idx, c :: cs => ⟨w, ts, c, idx + 1, some total⟩ :: mkBufferedRows w ts total (idx + 1) cs

/-- A WikiDO instance whose storage was never written (or was wiped). -/
def wikiEmpty : WikiState :=
  { fileSrc := none, wikiId := "", tenantId := "", info := none, versions := [] }

/-- Concrete created document used by witnesses: the state produced by
`create("t", "w", "n", "tw5")` with a one-byte template at timestamp 1. -/
def wikiS0 : WikiState :=
  { fileSrc := some [9]
    wikiId := "w"
    tenantId := "t"
    info := some ⟨"w", "t", "n", "tw5"⟩
    versions := [⟨"w", 1, [9], 1, some 1⟩] }

/-- Sanity: `wikiS0` is exactly the result of `create` on a fresh instance. -/
theorem wikiS0_reachable :
    wikiEmpty.create "t" "w" "n" "tw5" (some [9]) 1 = some (wikiS0, 1) := by
  decide

/-- Folding append from any accumulator is concatenation with the flattened
list, hence `mergeArrayBuffers` is `List.flatten`. -/
theorem foldl_append_eq (cs : List Bytes) :
    ∀ acc : Bytes, cs.foldl (fun a b => a ++ b) acc = acc ++ cs.flatten := by
  induction cs with
  | nil => intro acc; simp
  | cons c cs ih => intro acc; simp [ih, List.append_assoc]

/-- The merge of a chunk list is its concatenation. -/
theorem mergeArrayBuffers_eq_flatten (cs : List Bytes) :
    mergeArrayBuffers cs = cs.flatten := by
  simp [mergeArrayBuffers, foldl_append_eq]

/-- `chunkify` of the empty buffer is the empty chunk list. -/
theorem chunkify_nil (chunkSz : Nat) : chunkify [] chunkSz = [] := by
  cases chunkSz with
  | zero => simp [chunkify]
  | succ k => simp [chunkify, Nat.succ_sub_one, Nat.div_eq_of_lt (Nat.lt_succ_of_le (Nat.le_refl k))]

/-- Recursive characterization of the `chunkify` loop on a nonempty buffer:
the first `chunkSz` bytes form the first chunk, and the remaining chunks are
the chunkification of the rest. -/
theorem chunkify_cons (bb : Bytes) (chunkSz : Nat) (hsz : chunkSz ≠ 0)
    (hbb : bb ≠ []) :
    chunkify bb chunkSz = bb.take chunkSz :: chunkify (bb.drop chunkSz) chunkSz := by
  have hn : 1 ≤ bb.length := List.length_pos.mpr hbb
  have hs : 0 < chunkSz := Nat.pos_of_ne_zero hsz
  have hcount : (bb.length + chunkSz - 1) / chunkSz
      = ((bb.drop chunkSz).length + chunkSz - 1) / chunkSz + 1 := by
    rcases Nat.le_total bb.length chunkSz with hle | hle
    · have h1 : (bb.length + chunkSz - 1) / chunkSz = 1 := by
        apply Nat.div_eq_of_lt_le
        · omega
        · omega
      have h2 : (bb.drop chunkSz).length = 0 := by
        simp [List.length_drop]; omega
      rw [h1, h2]
      simp [Nat.div_eq_of_lt (by omega : chunkSz - 1 < chunkSz)]
    · have h2 : (bb.drop chunkSz).length = bb.length - chunkSz := List.length_drop _ _
      rw [h2]
      have : bb.length - chunkSz + chunkSz - 1 + chunkSz = bb.length + chunkSz - 1 := by omega
      calc (bb.length + chunkSz - 1) / chunkSz
          = (bb.length - chunkSz + chunkSz - 1 + chunkSz) / chunkSz := by rw [this]
        _ = (bb.length - chunkSz + chunkSz - 1) / chunkSz + 1 := Nat.add_div_right _ hs
  rw [chunkify, chunkify, hcount, List.range_succ_eq_map]
  simp only [List.map_cons, List.map_map, Nat.zero_mul, List.drop_zero]
  congr 1
  apply List.map_congr_left
  intro i _
  simp only [Function.comp_apply, List.drop_drop]
  congr 2
  rw [Nat.succ_mul]
  omega

/-- Splitting a buffer into chunks and concatenating them gives the buffer
back (`chunkify` loses no bytes and reorders nothing). -/
theorem chunkify_flatten (bb : Bytes) (chunkSz : Nat) (h : chunkSz ≠ 0) :
    (chunkify bb chunkSz).flatten = bb := by
  suffices hgen : ∀ n bb2, List.length bb2 = n → (chunkify bb2 chunkSz).flatten = bb2 by
    exact hgen bb.length bb rfl
  intro n
  induction n using Nat.strong_induction_on with
  | _ n ih =>
    intro bb2 hn
    rcases eq_or_ne bb2 [] with rfl | hbb
    · simp [chunkify_nil]
    · rw [chunkify_cons bb2 chunkSz h hbb]
      have hlt : (bb2.drop chunkSz).length < n := by
        rw [List.length_drop, hn]
        exact Nat.sub_lt (hn ▸ List.length_pos.mpr hbb) (Nat.pos_of_ne_zero h)
      simp [ih _ hlt (bb2.drop chunkSz) rfl, List.take_append_drop]

/-- Every chunk produced by `chunkify` has at most `chunkSz` bytes. -/
theorem chunkify_size_le (bb : Bytes) (chunkSz : Nat) :
    ∀ c ∈ chunkify bb chunkSz, c.length ≤ chunkSz := by
  intro c hc
  rw [chunkify] at hc
  rcases List.mem_map.mp hc with ⟨i, _, rfl⟩
  simp [List.length_take]

/-- The flushed payloads of the streaming loop concatenate back to the
source bytes. -/
theorem streamChunks_flatten (B : Bytes) : (streamChunks B).flatten = B := by
  induction B using streamChunks.induct with
  | case1 B h ih => rw [streamChunks]; simp [h, ih, List.take_append_drop]
  | case2 B h => rw [streamChunks]; simp [h]

/-- Inserting a row whose primary key is absent from the table is a plain
append. -/
theorem insertOrReplace_eq_append (tbl : List VersionRow) (r : VersionRow)
    (h : ∀ x ∈ tbl, ¬(x.wikiId = r.wikiId ∧ x.tsMs = r.tsMs ∧ x.chunkIdx = r.chunkIdx)) :
    insertOrReplace tbl r = tbl ++ [r] := by
  unfold insertOrReplace
  congr 1
  apply List.filter_eq_self.mpr
  intro x hx
  have h2 := h x hx
  simp only [not_and] at h2
  simp only [Bool.not_eq_true', Bool.and_eq_true, beq_iff_eq, Bool.not_eq_eq_eq_not, Bool.not_true]
  by_cases h1 : x.wikiId = r.wikiId
  · by_cases h3 : x.tsMs = r.tsMs
    · simp [h1, h3, h2 h1 h3]
    · simp [h3]
  · simp [h1]

/-- The payloads of the rows generated for the streaming flushes are exactly
the flushed chunks, in order. -/
theorem mkStreamRows_map_src (w : String) (ts : Nat) :
    ∀ (idx : Nat) (cs : List Bytes),
      (mkStreamRows w ts idx cs).map (fun r => r.src) = cs := by
  intro idx cs
  induction cs generalizing idx with
  | nil => simp [mkStreamRows]
  | cons c cs ih => simp [mkStreamRows, ih]

/-- Structure of every row generated for a streaming flush: right wiki and
timestamp, no `chunksTotal`, `chunkIdx` in `(idx, idx + cs.length]`, and a
payload drawn from the flushed chunks. -/
theorem mem_mkStreamRows (w : String) (ts : Nat) :
    ∀ (idx : Nat) (cs : List Bytes) (r : VersionRow), r ∈ mkStreamRows w ts idx cs →
      r.wikiId = w ∧ r.tsMs = ts ∧ r.chunksTotal = none ∧
        idx < r.chunkIdx ∧ r.chunkIdx ≤ idx + cs.length ∧ r.src ∈ cs := by
  intro idx cs
  induction cs generalizing idx with
  | nil => simp [mkStreamRows]
  | cons c cs ih =>
    intro r hr
    rcases List.mem_cons.mp hr with rfl | hr2
    · refine ⟨rfl, rfl, rfl, Nat.lt_succ_self idx, by simp, by simp⟩
    · obtain ⟨h1, h2, h3, h4, h5, h6⟩ := ih (idx + 1) r hr2
      exact ⟨h1, h2, h3, Nat.lt_of_succ_le (Nat.le_of_lt h4), by simpa [Nat.add_comm, Nat.add_assoc, Nat.add_left_comm] using h5, List.mem_cons_of_mem _ h6⟩

/-- The generated streaming rows have (weakly) increasing `chunkIdx`. -/
theorem mkStreamRows_pairwise (w : String) (ts : Nat) :
    ∀ (idx : Nat) (cs : List Bytes),
      (mkStreamRows w ts idx cs).Pairwise (fun a b => a.chunkIdx ≤ b.chunkIdx) := by
  intro idx cs
  induction cs generalizing idx with
  | nil => simp [mkStreamRows]
  | cons c cs ih =>
    rw [mkStreamRows]
    refine List.pairwise_cons.mpr ⟨?_, ih (idx + 1)⟩
    intro r hr
    exact Nat.le_of_lt (mem_mkStreamRows w ts (idx + 1) cs r hr).2.2.2.1

/-- Structure of every row generated by the buffered write: right wiki and
timestamp, `chunksTotal = total`, `chunkIdx` in `(idx, idx + cs.length]`, and
a payload drawn from the chunks. -/
theorem mem_mkBufferedRows (w : String) (ts : Nat) (total : Nat) :
    ∀ (idx : Nat) (cs : List Bytes) (r : VersionRow), r ∈ mkBufferedRows w ts total idx cs →
      r.wikiId = w ∧ r.tsMs = ts ∧ r.chunksTotal = some total ∧
        idx < r.chunkIdx ∧ r.chunkIdx ≤ idx + cs.length ∧ r.src ∈ cs := by
  intro idx cs
  induction cs generalizing idx with
  | nil => simp [mkBufferedRows]
  | cons c cs ih =>
    intro r hr
    rcases List.mem_cons.mp hr with rfl | hr2
    · refine ⟨rfl, rfl, rfl, Nat.lt_succ_self idx, by simp, by simp⟩
    · obtain ⟨h1, h2, h3, h4, h5, h6⟩ := ih (idx + 1) r hr2
      exact ⟨h1, h2, h3, Nat.lt_of_succ_le (Nat.le_of_lt h4), by simpa [Nat.add_comm, Nat.add_assoc, Nat.add_left_comm] using h5, List.mem_cons_of_mem _ h6⟩

/-- The payloads of the buffered-write rows are exactly the chunks. -/
theorem mkBufferedRows_map_src (w : String) (ts : Nat) (total : Nat) :
    ∀ (idx : Nat) (cs : List Bytes),
      (mkBufferedRows w ts total idx cs).map (fun r => r.src) = cs := by
  intro idx cs
  induction cs generalizing idx with
  | nil => simp [mkBufferedRows]
  | cons c cs ih => simp [mkBufferedRows, ih]

/-- The buffered-write rows have (weakly) increasing `chunkIdx`. -/
theorem mkBufferedRows_pairwise (w : String) (ts : Nat) (total : Nat) :
    ∀ (idx : Nat) (cs : List Bytes),
      (mkBufferedRows w ts total idx cs).Pairwise (fun a b => a.chunkIdx ≤ b.chunkIdx) := by
  intro idx cs
  induction cs generalizing idx with
  | nil => simp [mkBufferedRows]
  | cons c cs ih =>
    rw [mkBufferedRows]
    refine List.pairwise_cons.mpr ⟨?_, ih (idx + 1)⟩
    intro r hr
    exact Nat.le_of_lt (mem_mkBufferedRows w ts total (idx + 1) cs r hr).2.2.2.1

/-- The streaming loop always flushes at least once (the `done` iteration
writes the pending buffer even when it is empty). -/
theorem streamChunks_ne_nil (B : Bytes) : streamChunks B ≠ [] := by
  rw [streamChunks]
  split <;> simp

/-- Every payload flushed by the streaming loop has at most
`CHUNK_SIZE_MAX` bytes. -/
theorem streamChunks_size_le (B : Bytes) :
    ∀ c ∈ streamChunks B, c.length ≤ CHUNK_SIZE_MAX := by
  induction B using streamChunks.induct with
  | case1 B h ih =>
    rw [streamChunks]
    simp only [dif_pos h, List.mem_cons]
    rintro c (rfl | hc)
    · simp [List.length_take]
    · exact ih c hc
  | case2 B h =>
    rw [streamChunks]
    simp only [dif_neg h, List.mem_singleton]
    rintro c rfl
    exact Nat.le_of_not_lt fun hlt => h (Nat.le_of_lt hlt)

/-- Characterization of the streaming loop: provided every existing row for
this `(wikiId, tsMs)` has `chunkIdx ≤ idx` (in particular when no such row
exists), the loop appends exactly the rows generated from the flushed chunks
and returns `idx` advanced by the number of flushes. -/
theorem streamLoop_eq (w : String) (ts : Nat) (B : Bytes) (idx : Nat)
    (tbl : List VersionRow)
    (h : ∀ x ∈ tbl, x.wikiId = w → x.tsMs = ts → x.chunkIdx ≤ idx) :
    streamLoop w ts B idx tbl
      = (tbl ++ mkStreamRows w ts idx (streamChunks B),
         idx + (streamChunks B).length) := by
  suffices hgen : ∀ n B2 idx2 tbl2, List.length B2 = n →
      (∀ x ∈ tbl2, x.wikiId = w → x.tsMs = ts → x.chunkIdx ≤ idx2) →
      streamLoop w ts B2 idx2 tbl2
        = (tbl2 ++ mkStreamRows w ts idx2 (streamChunks B2),
           idx2 + (streamChunks B2).length) by
    exact hgen B.length B idx tbl rfl h
  intro n
  induction n using Nat.strong_induction_on with
  | _ n ih =>
    intro B2 idx2 tbl2 hn hkeys
    have hins : ∀ (src2 : Bytes),
        insertOrReplace tbl2 ⟨w, ts, src2, idx2 + 1, none⟩
          = tbl2 ++ [⟨w, ts, src2, idx2 + 1, none⟩] := by
      intro src2
      apply insertOrReplace_eq_append
      intro x hx hkey
      have h1 := hkeys x hx hkey.1 hkey.2.1
      have h2 : x.chunkIdx = idx2 + 1 := hkey.2.2
      omega
    by_cases hc : CHUNK_SIZE_MAX ≤ B2.length
    · rw [streamLoop, dif_pos hc, streamChunks, dif_pos hc]
      have hlt : (B2.drop CHUNK_SIZE_MAX).length < n := by
        rw [List.length_drop, hn]
        have hpos : 0 < CHUNK_SIZE_MAX := by decide
        rw [hn] at hc
        omega
      rw [hins, ih _ hlt (B2.drop CHUNK_SIZE_MAX) (idx2 + 1) _ rfl ?hkeys2]
      case hkeys2 =>
        intro x hx hxw hxts
        rcases List.mem_append.mp hx with hx1 | hx2
        · exact Nat.le_succ_of_le (hkeys x hx1 hxw hxts)
        · rcases List.mem_singleton.mp hx2 with rfl
          exact Nat.le_refl _
      rw [mkStreamRows]
      simp [List.append_assoc, List.length_cons]
      omega
    · rw [streamLoop, dif_neg hc, streamChunks, dif_neg hc, hins, mkStreamRows, mkStreamRows]
      simp

/-- Characterization of the buffered chunk-write fold: provided every
existing row for this `(wikiId, tsMs)` has `chunkIdx ≤ idx`, the fold over
the enumerated chunks appends exactly the generated buffered rows. -/
theorem foldl_insert_buffered (w : String) (ts : Nat) (total : Nat) :
    ∀ (cs : List Bytes) (idx : Nat) (tbl : List VersionRow),
      (∀ x ∈ tbl, x.wikiId = w → x.tsMs = ts → x.chunkIdx ≤ idx) →
      ((cs.enumFrom (idx + 1)).foldl
        (fun acc ic => insertOrReplace acc ⟨w, ts, ic.2, ic.1, some total⟩) tbl)
        = tbl ++ mkBufferedRows w ts total idx cs := by
  intro cs
  induction cs with
  | nil => intro idx tbl _; simp [mkBufferedRows]
  | cons c cs ih =>
    intro idx tbl hkeys
    rw [List.enumFrom_cons, mkBufferedRows]
    simp only [List.foldl_cons]
    have hins : insertOrReplace tbl ⟨w, ts, c, idx + 1, some total⟩
        = tbl ++ [⟨w, ts, c, idx + 1, some total⟩] := by
      apply insertOrReplace_eq_append
      intro x hx hkey
      have h1 := hkeys x hx hkey.1 hkey.2.1
      have h2 : x.chunkIdx = idx + 1 := hkey.2.2
      omega
    rw [hins, ih (idx + 1) _ ?hkeys2]
    case hkeys2 =>
      intro x hx hxw hxts
      rcases List.mem_append.mp hx with hx1 | hx2
      · exact Nat.le_succ_of_le (hkeys x hx1 hxw hxts)
      · rcases List.mem_singleton.mp hx2 with rfl
        exact Nat.le_refl _
    simp [List.append_assoc]

/-- With no prior row for this `(wikiId, tsMs)`, the buffered write appends
exactly the buffered rows carrying `chunksTotal = chunks.length`. -/
theorem writeChunksBuffered_eq (tbl : List VersionRow) (w : String) (ts : Nat)
    (chunks : List Bytes)
    (h : ∀ x ∈ tbl, x.wikiId = w → x.tsMs ≠ ts) :
    writeChunksBuffered tbl w ts chunks
      = tbl ++ mkBufferedRows w ts chunks.length 0 chunks := by
  unfold writeChunksBuffered
  have h0 : (0 : Nat) + 1 = 1 := rfl
  rw [← h0]
  apply foldl_insert_buffered
  intro x hx hxw hxts
  exact absurd hxts (h x hx hxw)

/-- Inserting at the head of a list whose head has a not-smaller `chunkIdx`
keeps the list as is. -/
theorem sortByChunkIdx_eq_self (l : List VersionRow)
    (h : l.Pairwise (fun a b => a.chunkIdx ≤ b.chunkIdx)) :
    sortByChunkIdx l = l := by
  induction l with
  | nil => rfl
  | cons x xs ih =>
    rcases List.pairwise_cons.mp h with ⟨hx, hxs⟩
    rw [sortByChunkIdx, ih hxs]
    cases xs with
    | nil => rfl
    | cons y ys =>
      rw [insertAscByIdx, if_pos (hx y (List.mem_cons_self y ys))]

/-- `rowsAt` distributes over table concatenation. -/
theorem rowsAt_append (a b : List VersionRow) (w : String) (ts : Nat) :
    rowsAt (a ++ b) w ts = rowsAt a w ts ++ rowsAt b w ts :=
  List.filter_append a b

/-- A table with no row at this `(wikiId, tsMs)` contributes nothing to
`rowsAt`. -/
theorem rowsAt_eq_nil (tbl : List VersionRow) (w : String) (ts : Nat)
    (h : ∀ r ∈ tbl, r.wikiId = w → r.tsMs ≠ ts) :
    rowsAt tbl w ts = [] := by
  apply List.filter_eq_nil_iff.mpr
  intro r hr
  simp only [Bool.and_eq_true, beq_iff_eq, not_and]
  intro hw hts
  exact h r hr hw hts

/-- A list of rows all at this `(wikiId, tsMs)` is returned whole by
`rowsAt`. -/
theorem rowsAt_eq_self (tbl : List VersionRow) (w : String) (ts : Nat)
    (h : ∀ r ∈ tbl, r.wikiId = w ∧ r.tsMs = ts) :
    rowsAt tbl w ts = tbl := by
  apply List.filter_eq_self.mpr
  intro r hr
  simp [(h r hr).1, (h r hr).2]

/-- `terminalRows` distributes over table concatenation. -/
theorem terminalRows_append (a b : List VersionRow) (w : String) :
    terminalRows (a ++ b) w = terminalRows a w ++ terminalRows b w :=
  List.filter_append a b

/-- Streaming flush rows carry no `chunksTotal`, so none of them is
terminal. -/
theorem terminalRows_mkStreamRows (w w2 : String) (ts : Nat) (idx : Nat)
    (cs : List Bytes) :
    terminalRows (mkStreamRows w ts idx cs) w2 = [] := by
  apply List.filter_eq_nil_iff.mpr
  intro r hr
  have h3 := (mem_mkStreamRows w ts idx cs r hr).2.2.1
  simp [VersionRow.isTerminal, h3]

/-- The max-picking step never steps back to an absent result. -/
theorem foldl_lciStep_some (l : List VersionRow) :
    ∀ p : Nat × Nat, l.foldl lciStep (some p) ≠ none := by
  induction l with
  | nil => intro p; simp
  | cons x xs ih =>
    intro p
    rw [List.foldl_cons]
    rcases p with ⟨t, c⟩
    by_cases hlt : t < x.tsMs
    · simpa [lciStep, hlt] using ih (x.tsMs, x.chunkIdx)
    · simpa [lciStep, hlt] using ih (t, c)

/-- The max-picking fold yields a pair taken from the scanned rows (or the
seed). -/
theorem foldl_lciStep_mem (l : List VersionRow) :
    ∀ (acc : Option (Nat × Nat)) (t c : Nat), l.foldl lciStep acc = some (t, c) →
      acc = some (t, c) ∨ ∃ x ∈ l, x.tsMs = t ∧ x.chunkIdx = c := by
  induction l with
  | nil => intro acc t c h; simp at h; exact Or.inl h
  | cons x xs ih =>
    intro acc t c h
    rw [List.foldl_cons] at h
    rcases ih (lciStep acc x) t c h with hstep | ⟨y, hy, hyt, hyc⟩
    · rcases acc with _ | ⟨t0, c0⟩
      · simp only [lciStep, Option.some_inj, Prod.mk.injEq] at hstep
        exact Or.inr ⟨x, List.mem_cons_self x xs, hstep.1, hstep.2⟩
      · simp only [lciStep] at hstep
        by_cases hlt : t0 < x.tsMs
        · rw [if_pos hlt] at hstep
          simp only [Option.some_inj, Prod.mk.injEq] at hstep
          exact Or.inr ⟨x, List.mem_cons_self x xs, hstep.1, hstep.2⟩
        · rw [if_neg hlt] at hstep
          exact Or.inl hstep
    · exact Or.inr ⟨y, List.mem_cons_of_mem x hy, hyt, hyc⟩

/-- The timestamp selected by the max-picking fold dominates the seed
timestamp. -/
theorem foldl_lciStep_seed_le (l : List VersionRow) :
    ∀ t0 c0 t c : Nat, l.foldl lciStep (some (t0, c0)) = some (t, c) → t0 ≤ t := by
  induction l with
  | nil =>
    intro t0 c0 t c h
    simp only [List.foldl_nil, Option.some_inj] at h
    exact Nat.le_of_eq (congrArg Prod.fst h)
  | cons x xs ih =>
    intro t0 c0 t c h
    rw [List.foldl_cons] at h
    by_cases hlt : t0 < x.tsMs
    · have := ih x.tsMs x.chunkIdx t c (by simpa [lciStep, hlt] using h)
      omega
    · exact ih t0 c0 t c (by simpa [lciStep, hlt] using h)

/-- The timestamp selected by the max-picking fold dominates every scanned
row's timestamp. -/
theorem foldl_lciStep_max (l : List VersionRow) :
    ∀ (acc : Option (Nat × Nat)) (t c : Nat), l.foldl lciStep acc = some (t, c) →
      ∀ x ∈ l, x.tsMs ≤ t := by
  induction l with
  | nil => intro acc t c _ x hx; simp at hx
  | cons y ys ih =>
    intro acc t c h x hx
    rw [List.foldl_cons] at h
    rcases List.mem_cons.mp hx with rfl | hx2
    · have hstep : ∃ t1 c1, lciStep acc x = some (t1, c1) ∧ x.tsMs ≤ t1 := by
        rcases acc with _ | ⟨t0, c0⟩
        · exact ⟨x.tsMs, x.chunkIdx, rfl, Nat.le_refl _⟩
        · by_cases hlt : t0 < x.tsMs
          · exact ⟨x.tsMs, x.chunkIdx, by simp [lciStep, hlt], Nat.le_refl _⟩
          · exact ⟨t0, c0, by simp [lciStep, hlt], Nat.le_of_not_lt hlt⟩
      rcases hstep with ⟨t1, c1, hstep, hle⟩
      rw [hstep] at h
      exact Nat.le_trans hle (foldl_lciStep_seed_le ys t1 c1 t c h)
    · exact ih (lciStep acc y) t c h x hx2

/-- Membership in a descending-insert is membership in the inserted element
or the original list. -/
theorem mem_insertDesc (a x : Nat) : ∀ l : List Nat, x ∈ insertDesc a l ↔ x = a ∨ x ∈ l := by
  intro l
  induction l with
  | nil => simp [insertDesc]
  | cons y ys ih =>
    rw [insertDesc]
    by_cases hle : y ≤ a
    · simp [hle]
    · simp only [if_neg hle, List.mem_cons, ih]
      tauto

/-- Descending sort preserves membership. -/
theorem mem_sortDesc (x : Nat) : ∀ l : List Nat, x ∈ sortDesc l ↔ x ∈ l := by
  intro l
  induction l with
  | nil => simp [sortDesc]
  | cons y ys ih => rw [sortDesc, mem_insertDesc]; simp [ih]

/-- Every timestamp listed by the retention query belongs to a terminal row
of the table for this wiki. -/
theorem retainedTss_mem (tbl : List VersionRow) (w : String) (t : Nat)
    (h : t ∈ retainedTss tbl w) :
    ∃ x ∈ tbl, x.wikiId = w ∧ x.isTerminal = true ∧ x.tsMs = t := by
  unfold retainedTss at h
  have h2 := List.mem_of_mem_take h
  rw [mem_sortDesc, List.mem_dedup] at h2
  rcases List.mem_map.mp h2 with ⟨x, hx, rfl⟩
  rcases List.mem_filter.mp hx with ⟨hmem, hcond⟩
  simp only [Bool.and_eq_true, beq_iff_eq] at hcond
  exact ⟨x, hmem, hcond.1, hcond.2, rfl⟩

/-- The retention GC either leaves the table untouched or filters it with
the 10th-most-recent complete timestamp as cutoff. -/
theorem gc_cases (tbl : List VersionRow) (w : String) :
    gc tbl w = tbl ∨
      ∃ cutoff, cutoff ∈ retainedTss tbl w ∧
        gc tbl w = tbl.filter (fun r => !(r.wikiId == w && decide (r.tsMs < cutoff))) := by
  unfold gc
  by_cases hlen : (retainedTss tbl w).length < RETAINED_VERSIONS_NUM
  · simp [hlen]
  · rw [if_neg hlen]
    cases hlast : (retainedTss tbl w).getLast? with
    | none => simp
    | some cutoff =>
      right
      refine ⟨cutoff, ?_, rfl⟩
      have hmem : cutoff ∈ (retainedTss tbl w).getLast? := hlast
      rcases List.mem_getLast?_eq_getLast hmem with ⟨hne, rfl⟩
      exact List.getLast_mem hne

/-- When fewer than 10 distinct complete-version timestamps exist, the
retention GC deletes nothing. -/
theorem gc_skip (tbl : List VersionRow) (w : String)
    (h : (retainedTss tbl w).length < RETAINED_VERSIONS_NUM) : gc tbl w = tbl := by
  simp only [gc]
  rw [if_pos h]

/-- When 10 distinct complete-version timestamps exist, the retention GC
deletes exactly the rows of this wiki strictly older than the 10th most
recent one. -/
theorem gc_delete (tbl : List VersionRow) (w : String) (cutoff : Nat)
    (hlen : ¬ (retainedTss tbl w).length < RETAINED_VERSIONS_NUM)
    (hlast : (retainedTss tbl w).getLast? = some cutoff) :
    gc tbl w = tbl.filter (fun r => !(r.wikiId == w && decide (r.tsMs < cutoff))) := by
  simp only [gc]
  rw [if_neg hlen, hlast]

/-- The selection of the latest complete version succeeds after appending a
terminal row strictly newer than every existing terminal row, and returns
that row's timestamp and `chunksTotal`. -/
theorem latestCompleteInfo_append_new (tbl rs : List VersionRow)
    (r : VersionRow) (w : String)
    (htbl : ∀ x ∈ tbl, x.wikiId = w → x.isTerminal = true → x.tsMs < r.tsMs)
    (hrs : terminalRows rs w = [])
    (hw : r.wikiId = w) (hterm : r.isTerminal = true) :
    latestCompleteInfo (tbl ++ rs ++ [r]) w = some (r.tsMs, r.chunkIdx) := by
  unfold latestCompleteInfo
  rw [terminalRows_append, terminalRows_append, hrs, List.append_nil]
  have hr : terminalRows [r] w = [r] := by
    unfold terminalRows
    simp [hw, hterm]
  rw [hr, List.foldl_append]
  have hL : ∀ x ∈ terminalRows tbl w, x.tsMs < r.tsMs := by
    intro x hx
    rcases List.mem_filter.mp hx with ⟨hmem, hcond⟩
    simp only [Bool.and_eq_true, beq_iff_eq] at hcond
    exact htbl x hmem hcond.1 hcond.2
  cases hfold : (terminalRows tbl w).foldl lciStep none with
  | none => simp [lciStep]
  | some p =>
    rcases p with ⟨t, c⟩
    have hmem := foldl_lciStep_mem (terminalRows tbl w) none t c hfold
    rcases hmem with hacc | ⟨x, hx, hxt, _⟩
    · exact absurd hacc (by simp)
    · have : t < r.tsMs := hxt ▸ hL x hx
      simp [lciStep, this]

/-- The latest-complete-version selection fails exactly when there is no
terminal row for the wiki. -/
theorem latestCompleteInfo_none_iff (tbl : List VersionRow) (w : String) :
    latestCompleteInfo tbl w = none ↔ terminalRows tbl w = [] := by
  unfold latestCompleteInfo
  constructor
  · intro h
    cases hterm : terminalRows tbl w with
    | nil => rfl
    | cons x xs =>
      rw [hterm, List.foldl_cons] at h
      have : lciStep none x = some (x.tsMs, x.chunkIdx) := rfl
      rw [this] at h
      exact absurd h (foldl_lciStep_some xs (x.tsMs, x.chunkIdx))
  · intro h
    rw [h]
    rfl

/-- `upsert` never changes the actor's identity binding fields or the
`wiki_info` table. -/
theorem upsert_preserves_identity (s : WikiState) (w : String) (B : Bytes)
    (cl : Option Nat) (ts : Nat) :
    (s.upsert w B cl ts).wikiId = s.wikiId ∧
      (s.upsert w B cl ts).tenantId = s.tenantId ∧
      (s.upsert w B cl ts).info = s.info := by
  unfold WikiState.upsert
  by_cases hb : bufferedPathTaken cl <;> simp [hb]

/-- Shape of the state after a streaming-path upsert at a fresh timestamp:
the cache stays empty and the table is the old rows, the flush rows, and the
terminal row, then garbage-collected. -/
theorem upsert_stream_eq (s : WikiState) (w : String) (B : Bytes)
    (cl : Option Nat) (ts : Nat) (hcl : bufferedPathTaken cl = false)
    (hfresh : ∀ r ∈ s.versions, r.tsMs < ts) :
    s.upsert w B cl ts =
      { s with
          fileSrc := none
          versions := gc
            (s.versions ++ mkStreamRows w ts 0 (streamChunks B)
              ++ [⟨w, ts, [], (streamChunks B).length + 1,
                    some ((streamChunks B).length + 1)⟩]) w } := by
  have hkeys : ∀ x ∈ s.versions, x.wikiId = w → x.tsMs = ts → x.chunkIdx ≤ 0 := by
    intro x hx _ hxts
    exact absurd hxts (Nat.ne_of_lt (hfresh x hx))
  have hloop := streamLoop_eq w ts B 0 s.versions hkeys
  have hins : insertOrReplace (s.versions ++ mkStreamRows w ts 0 (streamChunks B))
      ⟨w, ts, [], (streamChunks B).length + 1, some ((streamChunks B).length + 1)⟩
      = s.versions ++ mkStreamRows w ts 0 (streamChunks B)
        ++ [⟨w, ts, [], (streamChunks B).length + 1,
              some ((streamChunks B).length + 1)⟩] := by
    rw [insertOrReplace_eq_append, List.append_assoc]
    intro x hx hkey
    rcases List.mem_append.mp hx with hx1 | hx2
    · exact absurd hkey.2.1 (Nat.ne_of_lt (hfresh x hx1))
    · have hidx := (mem_mkStreamRows w ts 0 (streamChunks B) x hx2).2.2.2.2.1
      have hidx2 : x.chunkIdx = (streamChunks B).length + 1 := hkey.2.2
      omega
  unfold WikiState.upsert
  rw [hcl]
  simp only [Bool.false_eq_true, if_neg, ite_false]
  rw [hloop]
  simp only [Nat.zero_add]
  rw [hins]

/-- After a buffered-path upsert the cache holds exactly the ingested bytes,
so an immediate read serves them from memory. -/
theorem getFileSrc_after_buffered (s : WikiState) (w : String) (B : Bytes)
    (cl : Option Nat) (ts : Nat) (hcl : bufferedPathTaken cl = true)
    (hw : s.wikiId = w) (hw0 : w ≠ "") :
    (((s.upsert w B cl ts).getFileSrc w).2).servedBytes = some B := by
  have hs : s.upsert w B cl ts =
      { s with
          fileSrc := some B
          versions := gc (writeChunksBuffered s.versions w ts
            (chunkify B CHUNK_SIZE_MAX)) w } := by
    unfold WikiState.upsert
    rw [hcl]
    simp
  rw [hs]
  unfold WikiState.getFileSrc
  rw [if_neg (by simp [hw, hw0])]
  rfl

/-- The retention GC never deletes rows of the freshest timestamp: on a
table of old rows followed by new rows all carrying timestamp `ts` (newer
than every old row), it at most thins the old rows. -/
theorem gc_append_keep (A rs : List VersionRow) (r : VersionRow) (w : String)
    (ts : Nat)
    (hA : ∀ x ∈ A, x.tsMs < ts)
    (hrs : ∀ x ∈ rs, x.wikiId = w ∧ x.tsMs = ts)
    (hrts : r.tsMs = ts) :
    ∃ A2, gc (A ++ rs ++ [r]) w = A2 ++ rs ++ [r] ∧ ∀ x ∈ A2, x ∈ A := by
  rcases gc_cases (A ++ rs ++ [r]) w with hid | ⟨cutoff, hcut, hfil⟩
  · exact ⟨A, by rw [hid], fun x hx => hx⟩
  · rcases retainedTss_mem _ w cutoff hcut with ⟨x, hxmem, _, _, hxts⟩
    have hcut_le : cutoff ≤ ts := by
      rcases List.mem_append.mp hxmem with hx12 | hxr
      · rcases List.mem_append.mp hx12 with hx1 | hx2
        · exact hxts ▸ Nat.le_of_lt (hA x hx1)
        · exact hxts ▸ Nat.le_of_eq ((hrs x hx2).2)
      · rcases List.mem_singleton.mp hxr with rfl
        exact hxts ▸ Nat.le_of_eq hrts
    refine ⟨A.filter (fun r2 => !(r2.wikiId == w && decide (r2.tsMs < cutoff))), ?_,
      fun x hx => (List.mem_filter.mp hx).1⟩
    rw [hfil, List.filter_append, List.filter_append]
    congr 1
    · congr 1
      apply List.filter_eq_self.mpr
      intro y hy
      have hyts := (hrs y hy).2
      simp [hyts, Nat.not_lt_of_le hcut_le]
    · apply List.filter_eq_self.mpr
      intro y hy
      rcases List.mem_singleton.mp hy with rfl
      simp [hrts, Nat.not_lt_of_le hcut_le]

/-- After a streaming-path upsert at a fresh timestamp, the database read
path reconstructs exactly the ingested bytes: the freshly written terminal
row is selected as the latest complete version, the cursor returns the flush
rows and the zero-length terminal payload in `chunkIdx` order, and both
delivery branches concatenate back to the source. -/
theorem getFileSrc_after_streaming (s : WikiState) (w : String) (B : Bytes)
    (cl : Option Nat) (ts : Nat) (hcl : bufferedPathTaken cl = false)
    (hw : s.wikiId = w) (hw0 : w ≠ "")
    (hfresh : ∀ r ∈ s.versions, r.tsMs < ts) :
    (((s.upsert w B cl ts).getFileSrc w).2).servedBytes = some B := by
  have hRw : ∀ x ∈ mkStreamRows w ts 0 (streamChunks B),
      x.wikiId = w ∧ x.tsMs = ts := fun x hx =>
    ⟨(mem_mkStreamRows w ts 0 (streamChunks B) x hx).1,
     (mem_mkStreamRows w ts 0 (streamChunks B) x hx).2.1⟩
  obtain ⟨A2, hgc, hA2⟩ := gc_append_keep s.versions
    (mkStreamRows w ts 0 (streamChunks B))
    ⟨w, ts, [], (streamChunks B).length + 1, some ((streamChunks B).length + 1)⟩
    w ts hfresh hRw rfl
  have hlci : latestCompleteInfo
      (A2 ++ mkStreamRows w ts 0 (streamChunks B)
        ++ [⟨w, ts, [], (streamChunks B).length + 1,
              some ((streamChunks B).length + 1)⟩]) w
      = some (ts, (streamChunks B).length + 1) := by
    apply latestCompleteInfo_append_new
    · intro x hx _ _
      exact hfresh x (hA2 x hx)
    · exact terminalRows_mkStreamRows w w ts 0 (streamChunks B)
    · rfl
    · simp [VersionRow.isTerminal]
  have hrows : rowsAt
      (A2 ++ mkStreamRows w ts 0 (streamChunks B)
        ++ [⟨w, ts, [], (streamChunks B).length + 1,
              some ((streamChunks B).length + 1)⟩]) w ts
      = mkStreamRows w ts 0 (streamChunks B)
        ++ [⟨w, ts, [], (streamChunks B).length + 1,
              some ((streamChunks B).length + 1)⟩] := by
    rw [rowsAt_append, rowsAt_append]
    rw [rowsAt_eq_nil A2 w ts (fun r hr _ => Nat.ne_of_lt (hfresh r (hA2 r hr)))]
    rw [rowsAt_eq_self _ _ _ hRw]
    rw [rowsAt_eq_self _ _ _ (by
      intro r hr
      rcases List.mem_singleton.mp hr with rfl
      exact ⟨rfl, rfl⟩)]
    simp
  have hsort : sortByChunkIdx
      (mkStreamRows w ts 0 (streamChunks B)
        ++ [⟨w, ts, [], (streamChunks B).length + 1,
              some ((streamChunks B).length + 1)⟩])
      = mkStreamRows w ts 0 (streamChunks B)
        ++ [⟨w, ts, [], (streamChunks B).length + 1,
              some ((streamChunks B).length + 1)⟩] := by
    apply sortByChunkIdx_eq_self
    rw [List.pairwise_append]
    refine ⟨mkStreamRows_pairwise w ts 0 (streamChunks B),
      List.pairwise_singleton _ _, ?_⟩
    intro a ha b hb
    rcases List.mem_singleton.mp hb with rfl
    have hle := (mem_mkStreamRows w ts 0 (streamChunks B) a ha).2.2.2.2.1
    show a.chunkIdx ≤ (streamChunks B).length + 1
    omega
  have hmap : ((mkStreamRows w ts 0 (streamChunks B)
        ++ [(⟨w, ts, [], (streamChunks B).length + 1,
              some ((streamChunks B).length + 1)⟩ : VersionRow)]).map
        (fun r => r.src))
      = streamChunks B ++ [[]] := by
    rw [List.map_append, mkStreamRows_map_src]
    rfl
  have hflat : (streamChunks B ++ [[]]).flatten = B := by
    rw [List.flatten_append, streamChunks_flatten]
    simp
  rw [upsert_stream_eq s w B cl ts hcl hfresh]
  unfold WikiState.getFileSrc
  rw [if_neg (by simp [hw, hw0])]
  simp only [hgc, hlci, hrows, hsort, hmap]
  by_cases hdec : ((streamChunks B).length + 1) * CHUNK_SIZE_MAX
      < BYTE_SIZE_ATONCE_THRESHOLD
  · simp only [if_pos hdec, ReadResult.servedBytes, mergeArrayBuffers_eq_flatten]
    rw [hflat]
  · simp only [if_neg hdec, ReadResult.servedBytes]
    rw [hflat]

/-- The latest-complete-version selection returns the data of an actual
terminal row of the table. -/
theorem latestCompleteInfo_mem (tbl : List VersionRow) (w : String) (t c : Nat)
    (h : latestCompleteInfo tbl w = some (t, c)) :
    ∃ x ∈ tbl, x.wikiId = w ∧ x.isTerminal = true ∧ x.tsMs = t ∧ x.chunkIdx = c := by
  unfold latestCompleteInfo at h
  rcases foldl_lciStep_mem _ none t c h with hacc | ⟨x, hx, hxt, hxc⟩
  · simp at hacc
  · rcases List.mem_filter.mp hx with ⟨hmem, hcond⟩
    simp only [Bool.and_eq_true, beq_iff_eq] at hcond
    exact ⟨x, hmem, hcond.1, hcond.2, hxt, hxc⟩

/-- The latest-complete-version selection dominates every terminal row's
timestamp: it really is the most recent complete version. -/
theorem latestCompleteInfo_max (tbl : List VersionRow) (w : String) (t c : Nat)
    (h : latestCompleteInfo tbl w = some (t, c)) :
    ∀ x ∈ tbl, x.wikiId = w → x.isTerminal = true → x.tsMs ≤ t := by
  intro x hx hxw hxterm
  apply foldl_lciStep_max _ none t c h
  exact List.mem_filter.mpr ⟨hx, by simp [hxw, hxterm]⟩

/-- C1: for every byte sequence `B` (any length, covering 0, 1, exactly
1,500,000 and 15,000,000), a successful `upsert` of `B` into a document
whose actor is bound to the requested id, at a timestamp newer than every
stored row, followed by `getFileSrc` for the same id, serves a byte stream
whose concatenation is exactly `B`, on both the buffered and the streaming
ingestion path (the streaming path appends a zero-length terminal chunk row,
and the stored chunk payloads in `chunkIdx` order still concatenate to `B`). -/
theorem C1_upsert_getFileSrc_roundtrip (s : WikiState) (w : String) (B : Bytes)
    (cl : Option Nat) (ts : Nat)
    (hw : s.wikiId = w) (hw0 : w ≠ "")
    (hfresh : ∀ r ∈ s.versions, r.tsMs < ts) :
    (((s.upsert w B cl ts).getFileSrc w).2).servedBytes = some B := by
  cases hcl : bufferedPathTaken cl with
  | false => exact getFileSrc_after_streaming s w B cl ts hcl hw hw0 hfresh
  | true => exact getFileSrc_after_buffered s w B cl ts hcl hw hw0

/-- Witness for C1 at a concrete created document, streaming path. -/
theorem C1_witness :
    (wikiS0.wikiId = "w" ∧ "w" ≠ "" ∧ (∀ r ∈ wikiS0.versions, r.tsMs < 5)) ∧
      (((wikiS0.upsert "w" [1, 2] none 5).getFileSrc "w").2).servedBytes
        = some [1, 2] :=
  ⟨⟨by decide, by decide, by decide⟩,
   C1_upsert_getFileSrc_roundtrip wikiS0 "w" [1, 2] none 5
     (by decide) (by decide) (by decide)⟩

/-- C2: with no in-memory cache, `getFileSrc` serves exactly the chunk rows
of the most recent timestamp owning a terminal (`chunkIdx = chunksTotal`)
row — such a timestamp exists among the stored rows and dominates every
other complete timestamp — and the rows of an ingest interrupted before its
terminal row was written (a run of the streaming loop with no terminal
insert) change nothing about the response: the previous complete version is
served instead. -/
theorem C2_incomplete_invisible (s : WikiState) (w : String) (B : Bytes)
    (ts t total : Nat) :
    (s.fileSrc = none → s.wikiId = w → w ≠ "" →
      latestCompleteInfo s.versions w = some (t, total) →
      ((∃ x ∈ s.versions, x.wikiId = w ∧ x.isTerminal = true ∧ x.tsMs = t) ∧
       (∀ x ∈ s.versions, x.wikiId = w → x.isTerminal = true → x.tsMs ≤ t) ∧
       ((s.getFileSrc w).2).servedBytes =
         some ((sortByChunkIdx (rowsAt s.versions w t)).map
           (fun r => r.src)).flatten))
    ∧ (s.fileSrc = none → s.wikiId = w → w ≠ "" →
       (∀ r ∈ s.versions, r.tsMs < ts) →
       (({ s with versions := (streamLoop w ts B 0 s.versions).1 }
           : WikiState).getFileSrc w).2 = (s.getFileSrc w).2) := by
  constructor
  · intro hfs hw hw0 hlci
    refine ⟨?_, ?_, ?_⟩
    · rcases latestCompleteInfo_mem _ _ _ _ hlci with ⟨x, hx, h1, h2, h3, _⟩
      exact ⟨x, hx, h1, h2, h3⟩
    · exact latestCompleteInfo_max _ _ _ _ hlci
    · unfold WikiState.getFileSrc
      rw [if_neg (by simp [hw, hw0])]
      simp only [hfs, hlci]
      by_cases hdec : total * CHUNK_SIZE_MAX < BYTE_SIZE_ATONCE_THRESHOLD
      · simp [hdec, ReadResult.servedBytes, mergeArrayBuffers_eq_flatten]
      · simp [hdec, ReadResult.servedBytes]
  · intro hfs hw hw0 hfresh
    have hkeys : ∀ x ∈ s.versions, x.wikiId = w → x.tsMs = ts → x.chunkIdx ≤ 0 := by
      intro x hx _ hxts
      exact absurd hxts (Nat.ne_of_lt (hfresh x hx))
    have hloop := streamLoop_eq w ts B 0 s.versions hkeys
    have hterm : terminalRows ((streamLoop w ts B 0 s.versions).1) w
        = terminalRows s.versions w := by
      rw [hloop]
      rw [terminalRows_append, terminalRows_mkStreamRows, List.append_nil]
    have hlci2 : latestCompleteInfo ((streamLoop w ts B 0 s.versions).1) w
        = latestCompleteInfo s.versions w := by
      unfold latestCompleteInfo
      rw [hterm]
    unfold WikiState.getFileSrc
    rw [if_neg (by simp [hw, hw0]), if_neg (by simp [hw, hw0])]
    simp only [hfs, hlci2]
    cases hlci : latestCompleteInfo s.versions w with
    | none => rfl
    | some p =>
      rcases p with ⟨t2, c2⟩
      have ht2 : t2 < ts := by
        rcases latestCompleteInfo_mem _ _ _ _ hlci with ⟨x, hx, _, _, h3, _⟩
        exact h3 ▸ hfresh x hx
      have hrows2 : rowsAt ((streamLoop w ts B 0 s.versions).1) w t2
          = rowsAt s.versions w t2 := by
        rw [hloop, rowsAt_append]
        rw [rowsAt_eq_nil (mkStreamRows w ts 0 (streamChunks B)) w t2 (by
          intro r hr _
          have := (mem_mkStreamRows w ts 0 (streamChunks B) r hr).2.1
          omega)]
        rw [List.append_nil]
      simp only [hrows2]
      by_cases hdec : c2 * CHUNK_SIZE_MAX < BYTE_SIZE_ATONCE_THRESHOLD <;> simp [hdec]

/-- Witness for C2 at a concrete state with a cold cache. -/
theorem C2_witness :
    (({ wikiS0 with fileSrc := none } : WikiState).fileSrc = none ∧
      ({ wikiS0 with fileSrc := none } : WikiState).wikiId = "w" ∧ "w" ≠ "" ∧
      latestCompleteInfo ({ wikiS0 with fileSrc := none } : WikiState).versions "w"
        = some (1, 1)) ∧
    ((∃ x ∈ ({ wikiS0 with fileSrc := none } : WikiState).versions,
        x.wikiId = "w" ∧ x.isTerminal = true ∧ x.tsMs = 1) ∧
     (∀ x ∈ ({ wikiS0 with fileSrc := none } : WikiState).versions,
        x.wikiId = "w" → x.isTerminal = true → x.tsMs ≤ 1) ∧
     ((({ wikiS0 with fileSrc := none } : WikiState).getFileSrc "w").2).servedBytes =
       some ((sortByChunkIdx (rowsAt ({ wikiS0 with fileSrc := none }
         : WikiState).versions "w" 1)).map (fun r => r.src)).flatten) :=
  ⟨⟨by decide, by decide, by decide, by decide⟩,
   (C2_incomplete_invisible ({ wikiS0 with fileSrc := none }) "w" [] 0 1 1).1
     (by decide) (by decide) (by decide) (by decide)⟩

/-- C6: a `getFileSrc` call against an actor whose bound wiki identity is
unset (never created, or wiped by `deleteAll`) or different from the
requested id returns the client-fault 400 response and leaves the state
untouched, never serving empty or default content; with a matching non-empty
binding the call never returns the client fault, and serves the in-memory
cache directly when it is populated. -/
theorem C6_identity_guard (s : WikiState) (w : String) :
    ((s.wikiId = "" ∨ s.wikiId ≠ w) → s.getFileSrc w = (s, ReadResult.badRequest)) ∧
      ((s.deleteAll).getFileSrc w).2 = ReadResult.badRequest ∧
      (s.wikiId = w → w ≠ "" →
        (s.getFileSrc w).2 ≠ ReadResult.badRequest ∧
        ∀ b, s.fileSrc = some b → (s.getFileSrc w).2 = ReadResult.buffered b) := by
  refine ⟨?_, ?_, ?_⟩
  · intro hguard
    unfold WikiState.getFileSrc
    rw [if_pos hguard]
  · unfold WikiState.deleteAll WikiState.getFileSrc
    simp
  · intro hw hw0
    constructor
    · unfold WikiState.getFileSrc
      rw [if_neg (by simp [hw, hw0])]
      cases hfs : s.fileSrc with
      | some b => simp
      | none =>
        cases hlci : latestCompleteInfo s.versions w with
        | none => simp
        | some p =>
          rcases p with ⟨t, c⟩
          by_cases hdec : c * CHUNK_SIZE_MAX < BYTE_SIZE_ATONCE_THRESHOLD
          · simp [hdec]
          · simp [hdec]
    · intro b hb
      unfold WikiState.getFileSrc
      rw [if_neg (by simp [hw, hw0])]
      simp only [hb]

/-- Witness for C6 at concrete states: a mismatched id on the created
document, and the cache fast path. -/
theorem C6_witness :
    (wikiS0.wikiId = "" ∨ wikiS0.wikiId ≠ "other") ∧
      wikiS0.getFileSrc "other" = (wikiS0, ReadResult.badRequest) :=
  ⟨by decide, (C6_identity_guard wikiS0 "other").1 (by decide)⟩

/-- C5 counterexample: a caller-supplied content-length hint of `0` is known
and below the 5 MB threshold, yet the upsert takes the streaming path —
JavaScript `contentLength && contentLength < threshold` treats the number
zero as falsy.  Observable deviation from the buffered-path contract: the
in-memory cache is left empty instead of holding the ingested buffer, and
the rows written are a `chunksTotal`-less flush row plus the zero-length
terminal row rather than buffered rows carrying `chunksTotal`. -/
theorem C5_counterexample :
    (0 < BYTE_SIZE_ATONCE_THRESHOLD ∧ bufferedPathTaken (some 0) = false) ∧
      (wikiS0.upsert "w" [7] (some 0) 5).fileSrc = none ∧
      (wikiS0.upsert "w" [7] (some 0) 5).versions =
        [⟨"w", 1, [9], 1, some 1⟩, ⟨"w", 5, [7], 1, none⟩,
         ⟨"w", 5, [], 2, some 2⟩] := by
  have hsc : streamChunks [7] = [[7]] := by
    rw [streamChunks, dif_neg (by decide)]
  have hst := upsert_stream_eq wikiS0 "w" [7] (some 0) 5 (by decide) (by decide)
  rw [hsc] at hst
  refine ⟨⟨by decide, by decide⟩, ?_, ?_⟩ <;> rw [hst] <;> decide

/-- C5 amended: the buffered path is taken exactly when the hint is present,
nonzero and below the 5 MB threshold (a present hint of zero is falsy in
JavaScript and falls through to streaming); on the buffered path the whole
source is buffered, chunkified, every chunk row carries `chunksTotal`, and
the cache is populated with the buffer; with an absent, zero, or at/above
threshold hint the streaming path runs instead, leaving the cache empty and
writing the flush rows plus the zero-length terminal row. -/
theorem C5_path_selection (s : WikiState) (w : String) (B : Bytes)
    (cl : Option Nat) (ts : Nat) :
    (bufferedPathTaken cl = true ↔
      ∃ n, cl = some n ∧ n ≠ 0 ∧ n < BYTE_SIZE_ATONCE_THRESHOLD) ∧
    (bufferedPathTaken cl = true →
      s.upsert w B cl ts =
        { s with
            fileSrc := some B
            versions := gc (writeChunksBuffered s.versions w ts
              (chunkify B CHUNK_SIZE_MAX)) w }) ∧
    (bufferedPathTaken cl = false → (∀ r ∈ s.versions, r.tsMs < ts) →
      s.upsert w B cl ts =
        { s with
            fileSrc := none
            versions := gc (s.versions ++ mkStreamRows w ts 0 (streamChunks B)
              ++ [⟨w, ts, [], (streamChunks B).length + 1,
                    some ((streamChunks B).length + 1)⟩]) w }) := by
  refine ⟨?_, ?_, ?_⟩
  · cases cl with
    | none => simp [bufferedPathTaken]
    | some n =>
      simp only [bufferedPathTaken, Bool.and_eq_true, bne_iff_ne, ne_eq,
        decide_eq_true_eq, Option.some_inj]
      constructor
      · rintro ⟨h1, h2⟩
        exact ⟨n, rfl, h1, h2⟩
      · rintro ⟨m, rfl, h1, h2⟩
        exact ⟨h1, h2⟩
  · intro hcl
    unfold WikiState.upsert
    rw [hcl]
    simp
  · intro hcl hfresh
    exact upsert_stream_eq s w B cl ts hcl hfresh

/-- Witness for C5 at a concrete buffered upsert. -/
theorem C5_witness :
    bufferedPathTaken (some 1) = true ∧
      wikiS0.upsert "w" [3] (some 1) 7 =
        { wikiS0 with
            fileSrc := some [3]
            versions := gc (writeChunksBuffered wikiS0.versions "w" 7
              (chunkify [3] CHUNK_SIZE_MAX)) "w" } :=
  ⟨by decide,
   (C5_path_selection wikiS0 "w" [3] (some 1) 7).2.1 (by decide)⟩

/-- C4 amended: the cold-cache delivery decision compares
`chunksTotal * CHUNK_SIZE_MAX` (a chunk-count upper bound on the size, i.e.
at-once iff `chunksTotal ≤ 3`) against the 5 MB threshold, not the actual
reconstructed size: below it the chunks are merged into one buffer that is
cached on the actor and served directly, otherwise the lazy chunk sequence
is served with the state untouched.  Any version of actual size at least
5 MB still always takes the lazy path, but a version under 5 MB whose
`chunksTotal` is 4 or more is also served lazily. -/
theorem C4_delivery_decision (s : WikiState) (w : String) (t total : Nat)
    (hfs : s.fileSrc = none) (hw : s.wikiId = w) (hw0 : w ≠ "")
    (hlci : latestCompleteInfo s.versions w = some (t, total)) :
    (total * CHUNK_SIZE_MAX < BYTE_SIZE_ATONCE_THRESHOLD →
      s.getFileSrc w =
        ({ s with fileSrc := some (mergeArrayBuffers
            ((sortByChunkIdx (rowsAt s.versions w t)).map (fun r => r.src))) },
         ReadResult.buffered (mergeArrayBuffers
            ((sortByChunkIdx (rowsAt s.versions w t)).map (fun r => r.src))))) ∧
    (BYTE_SIZE_ATONCE_THRESHOLD ≤ total * CHUNK_SIZE_MAX →
      s.getFileSrc w =
        (s, ReadResult.streamed
          ((sortByChunkIdx (rowsAt s.versions w t)).map (fun r => r.src)))) := by
  constructor
  · intro hdec
    unfold WikiState.getFileSrc
    rw [if_neg (by simp [hw, hw0])]
    simp [hfs, hlci, hdec]
  · intro hdec
    unfold WikiState.getFileSrc
    rw [if_neg (by simp [hw, hw0])]
    simp [hfs, hlci, Nat.not_lt_of_le hdec]

/-- Witness for C4 at the concrete created document with a cold cache. -/
theorem C4_witness :
    (({ wikiS0 with fileSrc := none } : WikiState).fileSrc = none ∧
      ({ wikiS0 with fileSrc := none } : WikiState).wikiId = "w" ∧ "w" ≠ "" ∧
      latestCompleteInfo ({ wikiS0 with fileSrc := none }
        : WikiState).versions "w" = some (1, 1) ∧
      1 * CHUNK_SIZE_MAX < BYTE_SIZE_ATONCE_THRESHOLD) ∧
    ({ wikiS0 with fileSrc := none } : WikiState).getFileSrc "w" =
      ({ wikiS0 with fileSrc := some (mergeArrayBuffers
          ((sortByChunkIdx (rowsAt ({ wikiS0 with fileSrc := none }
            : WikiState).versions "w" 1)).map (fun r => r.src))) },
       ReadResult.buffered (mergeArrayBuffers
          ((sortByChunkIdx (rowsAt ({ wikiS0 with fileSrc := none }
            : WikiState).versions "w" 1)).map (fun r => r.src)))) :=
  ⟨⟨by decide, by decide, by decide, by decide, by decide⟩,
   (C4_delivery_decision ({ wikiS0 with fileSrc := none }) "w" 1 1
      (by decide) (by decide) (by decide) (by decide)).1 (by decide)⟩

/-- C4 counterexample: stream-ingest exactly 3,000,000 bytes (total
reconstructed size strictly below the 5 MB threshold) into the created
document.  The version is stored as two full chunks, one empty flush row and
the empty terminal row, so `chunksTotal = 4` and
`4 * CHUNK_SIZE_MAX = 6,000,000 ≥ 5,000,000`: the subsequent read serves the
lazy chunk sequence and leaves the in-memory cache empty, instead of
concatenating into one cached buffer as the claim requires for sizes below
5 MB. -/
theorem C4_counterexample :
    ((wikiS0.upsert "w" (List.replicate 3000000 0) none 2).getFileSrc "w").2
        = ReadResult.streamed
            [List.replicate 1500000 0, List.replicate 1500000 0, [], []] ∧
      ([List.replicate 1500000 (0:Nat), List.replicate 1500000 0, [],
        []] : List Bytes).flatten.length < BYTE_SIZE_ATONCE_THRESHOLD ∧
      ((wikiS0.upsert "w" (List.replicate 3000000 0) none 2).getFileSrc
        "w").1.fileSrc = none := by
  have hsc : streamChunks (List.replicate 3000000 (0:Nat))
      = [List.replicate 1500000 0, List.replicate 1500000 0, []] := by
    rw [streamChunks, dif_pos (by rw [List.length_replicate]; decide),
      List.take_replicate, List.drop_replicate]
    norm_num [CHUNK_SIZE_MAX]
    rw [streamChunks, dif_pos (by rw [List.length_replicate]; decide),
      List.take_replicate, List.drop_replicate]
    norm_num [CHUNK_SIZE_MAX]
    rw [streamChunks, dif_neg (by decide)]
  have hst := upsert_stream_eq wikiS0 "w" (List.replicate 3000000 0) none 2
    rfl (by decide)
  rw [hsc] at hst
  norm_num [List.length_cons] at hst
  have hRw : ∀ x ∈ mkStreamRows "w" 2 0
      ([List.replicate 1500000 0, List.replicate 1500000 0, []] : List Bytes),
      x.wikiId = "w" ∧ x.tsMs = 2 := fun x hx =>
    ⟨(mem_mkStreamRows _ _ _ _ x hx).1, (mem_mkStreamRows _ _ _ _ x hx).2.1⟩
  have hTR : terminalRows (wikiS0.versions
      ++ mkStreamRows "w" 2 0
          ([List.replicate 1500000 0, List.replicate 1500000 0, []] : List Bytes)
      ++ [(⟨"w", 2, [], 4, some 4⟩ : VersionRow)]) "w"
      = [⟨"w", 1, [9], 1, some 1⟩, ⟨"w", 2, [], 4, some 4⟩] := by
    rw [terminalRows_append, terminalRows_append, terminalRows_mkStreamRows]
    rfl
  have hgcid : gc (wikiS0.versions
      ++ mkStreamRows "w" 2 0
          ([List.replicate 1500000 0, List.replicate 1500000 0, []] : List Bytes)
      ++ [(⟨"w", 2, [], 4, some 4⟩ : VersionRow)]) "w"
      = wikiS0.versions
      ++ mkStreamRows "w" 2 0
          ([List.replicate 1500000 0, List.replicate 1500000 0, []] : List Bytes)
      ++ [(⟨"w", 2, [], 4, some 4⟩ : VersionRow)] := by
    apply gc_skip
    unfold retainedTss
    rw [hTR]
    decide
  have hlci : latestCompleteInfo (wikiS0.versions
      ++ mkStreamRows "w" 2 0
          ([List.replicate 1500000 0, List.replicate 1500000 0, []] : List Bytes)
      ++ [(⟨"w", 2, [], 4, some 4⟩ : VersionRow)]) "w" = some (2, 4) := by
    apply latestCompleteInfo_append_new
    · intro x hx _ _
      have : x ∈ wikiS0.versions := hx
      simp only [wikiS0, List.mem_singleton] at this
      rw [this]
      decide
    · exact terminalRows_mkStreamRows _ _ _ _ _
    · rfl
    · decide
  have hrows : rowsAt (wikiS0.versions
      ++ mkStreamRows "w" 2 0
          ([List.replicate 1500000 0, List.replicate 1500000 0, []] : List Bytes)
      ++ [(⟨"w", 2, [], 4, some 4⟩ : VersionRow)]) "w" 2
      = mkStreamRows "w" 2 0
          ([List.replicate 1500000 0, List.replicate 1500000 0, []] : List Bytes)
        ++ [(⟨"w", 2, [], 4, some 4⟩ : VersionRow)] := by
    rw [rowsAt_append, rowsAt_append]
    rw [rowsAt_eq_nil wikiS0.versions "w" 2 (by
      intro r hr _
      have : r ∈ wikiS0.versions := hr
      simp only [wikiS0, List.mem_singleton] at this
      rw [this]
      decide)]
    rw [rowsAt_eq_self _ _ _ hRw]
    rw [rowsAt_eq_self _ _ _ (by
      intro r hr
      rcases List.mem_singleton.mp hr with rfl
      exact ⟨rfl, rfl⟩)]
    simp only [List.nil_append]
  have hsort : sortByChunkIdx (mkStreamRows "w" 2 0
          ([List.replicate 1500000 0, List.replicate 1500000 0, []] : List Bytes)
        ++ [(⟨"w", 2, [], 4, some 4⟩ : VersionRow)])
      = mkStreamRows "w" 2 0
          ([List.replicate 1500000 0, List.replicate 1500000 0, []] : List Bytes)
        ++ [(⟨"w", 2, [], 4, some 4⟩ : VersionRow)] := by
    apply sortByChunkIdx_eq_self
    rw [List.pairwise_append]
    refine ⟨mkStreamRows_pairwise _ _ _ _, List.pairwise_singleton _ _, ?_⟩
    intro a ha b hb
    rcases List.mem_singleton.mp hb with rfl
    have hle := (mem_mkStreamRows _ _ _ _ a ha).2.2.2.2.1
    show a.chunkIdx ≤ 4
    simp only [List.length_cons, List.length_nil] at hle
    omega
  have hmap : ((mkStreamRows "w" 2 0
          ([List.replicate 1500000 0, List.replicate 1500000 0, []] : List Bytes)
        ++ [(⟨"w", 2, [], 4, some 4⟩ : VersionRow)]).map (fun r => r.src))
      = [List.replicate 1500000 0, List.replicate 1500000 0, [], []] := by
    rw [List.map_append, mkStreamRows_map_src]
    rfl
  rw [hst]
  unfold WikiState.getFileSrc
  rw [if_neg (by decide)]
  simp only [← List.append_assoc]
  simp only [hgcid, hlci, hrows, hsort, hmap]
  rw [if_neg (by decide)]
  refine ⟨rfl, ?_, rfl⟩
  simp only [List.flatten_cons, List.flatten_nil, List.length_append,
    List.length_replicate, List.length_nil, List.append_nil]
  decide

set_option maxRecDepth 100000 in
/-- C3: after a successful upsert the retention step deletes nothing when
fewer than 10 distinct complete-version timestamps exist, and otherwise
deletes exactly the chunk rows of this document strictly older than the
10th-most-recent complete timestamp; concretely, 15 successive successful
upserts into a freshly created document leave exactly the 10 newest upsert
timestamps as complete versions, with no chunk row of the 5 oldest upserts
(nor of the initial create) surviving. -/
theorem C3_retention (tbl : List VersionRow) (w : String) (cutoff : Nat) :
    ((retainedTss tbl w).length < RETAINED_VERSIONS_NUM → gc tbl w = tbl) ∧
    (¬ (retainedTss tbl w).length < RETAINED_VERSIONS_NUM →
      (retainedTss tbl w).getLast? = some cutoff →
      gc tbl w = tbl.filter (fun r => !(r.wikiId == w && decide (r.tsMs < cutoff)))) ∧
    (sortDesc (((terminalRows ((List.range 15).foldl
          (fun st i => st.upsert "w" [i] (some 1) (10 + i)) wikiS0).versions
        "w").map (fun r => r.tsMs)).dedup)
      = [24, 23, 22, 21, 20, 19, 18, 17, 16, 15] ∧
     ∀ r ∈ ((List.range 15).foldl
          (fun st i => st.upsert "w" [i] (some 1) (10 + i)) wikiS0).versions,
       15 ≤ r.tsMs ∧ r.wikiId = "w") :=
  ⟨gc_skip tbl w, gc_delete tbl w cutoff, by decide, by decide⟩

/-- Witness for C3 at the created document (only two complete versions, so
the retention step deletes nothing). -/
theorem C3_witness :
    (retainedTss wikiS0.versions "w").length < RETAINED_VERSIONS_NUM ∧
      gc wikiS0.versions "w" = wikiS0.versions :=
  ⟨by decide, (C3_retention wikiS0.versions "w" 0).1 (by decide)⟩

/-- A row of the table after an `INSERT OR REPLACE` is an old row or the
inserted row. -/
theorem mem_insertOrReplace (tbl : List VersionRow) (r x : VersionRow)
    (h : x ∈ insertOrReplace tbl r) : x ∈ tbl ∨ x = r := by
  unfold insertOrReplace at h
  rcases List.mem_append.mp h with h1 | h1
  · exact Or.inl (List.mem_filter.mp h1).1
  · exact Or.inr (List.mem_singleton.mp h1)

/-- A row of the table after the streaming loop is an old row or a flush of
at most `CHUNK_SIZE_MAX` bytes. -/
theorem streamLoop_mem (w : String) (ts : Nat) :
    ∀ (B : Bytes) (idx : Nat) (tbl : List VersionRow) (x : VersionRow),
      x ∈ (streamLoop w ts B idx tbl).1 →
      x ∈ tbl ∨ x.src.length ≤ CHUNK_SIZE_MAX := by
  suffices hgen : ∀ (n : Nat) (B : Bytes) (idx : Nat) tbl x, B.length = n →
      x ∈ (streamLoop w ts B idx tbl).1 → x ∈ tbl ∨ x.src.length ≤ CHUNK_SIZE_MAX by
    intro B idx tbl x
    exact hgen B.length B idx tbl x rfl
  intro n
  induction n using Nat.strong_induction_on with
  | _ n ih =>
    intro B idx tbl x hn hx
    by_cases hc : CHUNK_SIZE_MAX ≤ B.length
    · rw [streamLoop, dif_pos hc] at hx
      have hlt : (B.drop CHUNK_SIZE_MAX).length < n := by
        rw [List.length_drop, hn]
        have hpos : 0 < CHUNK_SIZE_MAX := by decide
        rw [hn] at hc
        omega
      rcases ih _ hlt (B.drop CHUNK_SIZE_MAX) (idx + 1) _ x rfl hx with hmem | hsz
      · rcases mem_insertOrReplace _ _ _ hmem with h1 | rfl
        · exact Or.inl h1
        · exact Or.inr (by simp [List.length_take])
      · exact Or.inr hsz
    · rw [streamLoop, dif_neg hc] at hx
      rcases mem_insertOrReplace _ _ _ hx with h1 | rfl
      · exact Or.inl h1
      · exact Or.inr (Nat.le_of_not_lt fun hlt => hc (Nat.le_of_lt hlt))

/-- A row of the table after a fold of chunk inserts is an old row or one of
the inserted chunk rows. -/
theorem foldl_insertOrReplace_mem (w : String) (ts : Nat) (ct : Option Nat) :
    ∀ (l : List (Nat × Bytes)) (tbl : List VersionRow) (x : VersionRow),
      x ∈ l.foldl (fun acc ic => insertOrReplace acc ⟨w, ts, ic.2, ic.1, ct⟩) tbl →
      x ∈ tbl ∨ ∃ ic ∈ l, x = ⟨w, ts, ic.2, ic.1, ct⟩ := by
  intro l
  induction l with
  | nil => intro tbl x hx; exact Or.inl hx
  | cons ic l ih =>
    intro tbl x hx
    rw [List.foldl_cons] at hx
    rcases ih _ x hx with h1 | ⟨ic2, hic2, rfl⟩
    · rcases mem_insertOrReplace _ _ _ h1 with h2 | rfl
      · exact Or.inl h2
      · exact Or.inr ⟨ic, List.mem_cons_self ic l, rfl⟩
    · exact Or.inr ⟨ic2, List.mem_cons_of_mem ic hic2, rfl⟩

/-- The data component of an enumerated pair is an element of the original
list. -/
theorem enumFrom_snd_mem {α : Type} :
    ∀ (l : List α) (n : Nat) (p : Nat × α), p ∈ l.enumFrom n → p.2 ∈ l := by
  intro l
  induction l with
  | nil => intro n p hp; simp [List.enumFrom] at hp
  | cons a l ih =>
    intro n p hp
    rw [List.enumFrom_cons] at hp
    rcases List.mem_cons.mp hp with rfl | hp2
    · exact List.mem_cons_self a l
    · exact List.mem_cons_of_mem a (ih (n + 1) p hp2)

/-- A row of the table after the buffered chunk write is an old row or
carries one of the chunk payloads. -/
theorem writeChunksBuffered_mem (tbl : List VersionRow) (w : String) (ts : Nat)
    (chunks : List Bytes) (x : VersionRow)
    (h : x ∈ writeChunksBuffered tbl w ts chunks) :
    x ∈ tbl ∨ x.src ∈ chunks := by
  unfold writeChunksBuffered at h
  rcases foldl_insertOrReplace_mem w ts (some chunks.length) _ tbl x h with h1 | ⟨ic, hic, rfl⟩
  · exact Or.inl h1
  · exact Or.inr (enumFrom_snd_mem chunks 1 ic hic)

/-- A row surviving the retention GC was in the table before it. -/
theorem gc_mem (tbl : List VersionRow) (w : String) (x : VersionRow)
    (h : x ∈ gc tbl w) : x ∈ tbl := by
  rcases gc_cases tbl w with hid | ⟨cutoff, _, hfil⟩
  · rw [hid] at h; exact h
  · rw [hfil] at h; exact (List.mem_filter.mp h).1

/-- Shape of the state after a buffered-path upsert. -/
theorem upsert_buffered_eq (s : WikiState) (w : String) (B : Bytes)
    (cl : Option Nat) (ts : Nat) (hcl : bufferedPathTaken cl = true) :
    s.upsert w B cl ts =
      { s with
          fileSrc := some B
          versions := gc (writeChunksBuffered s.versions w ts
            (chunkify B CHUNK_SIZE_MAX)) w } := by
  unfold WikiState.upsert
  rw [hcl]
  simp

/-- Shape of the state after a streaming-path upsert, with no freshness
assumption on the timestamp. -/
theorem upsert_stream_shape (s : WikiState) (w : String) (B : Bytes)
    (cl : Option Nat) (ts : Nat) (hcl : bufferedPathTaken cl = false) :
    s.upsert w B cl ts =
      { s with
          fileSrc := none
          versions := gc (insertOrReplace (streamLoop w ts B 0 s.versions).1
            ⟨w, ts, [], (streamLoop w ts B 0 s.versions).2 + 1,
              some ((streamLoop w ts B 0 s.versions).2 + 1)⟩) w } := by
  unfold WikiState.upsert
  rw [hcl]
  simp

/-- C7: every chunk row ever written by `create` or `upsert` (either path)
has a payload of at most `CHUNK_SIZE_MAX = 1,500,000` bytes: `chunkify`
slices buffers into windows of at most that size, the streaming loop flushes
as soon as its accumulation reaches it, and the terminal row is empty — so
the bound is an invariant of the version table. -/
theorem C7_chunk_size_invariant (s : WikiState)
    (w tenantId name wikiType : String) (B template : Bytes)
    (cl : Option Nat) (ts ts2 : Nat)
    (hinv : ∀ r ∈ s.versions, r.src.length ≤ CHUNK_SIZE_MAX) :
    (∀ r ∈ (s.upsert w B cl ts).versions, r.src.length ≤ CHUNK_SIZE_MAX) ∧
    (∀ s2 cAt, s.create tenantId w name wikiType (some template) ts2 = some (s2, cAt) →
      ∀ r ∈ s2.versions, r.src.length ≤ CHUNK_SIZE_MAX) := by
  constructor
  · intro r hr
    cases hb : bufferedPathTaken cl with
    | true =>
      rw [upsert_buffered_eq s w B cl ts hb] at hr
      have h2 := gc_mem _ _ _ hr
      rcases writeChunksBuffered_mem _ _ _ _ _ h2 with h3 | h3
      · exact hinv r h3
      · exact chunkify_size_le B CHUNK_SIZE_MAX _ h3
    | false =>
      rw [upsert_stream_shape s w B cl ts hb] at hr
      have h2 := gc_mem _ _ _ hr
      rcases mem_insertOrReplace _ _ _ h2 with h3 | rfl
      · rcases streamLoop_mem w ts B 0 s.versions r h3 with h4 | h4
        · exact hinv r h4
        · exact h4
      · simp
  · intro s2 cAt hcr r hr
    unfold WikiState.create at hcr
    by_cases hty : wikiType = "tw5"
    · rw [if_pos hty] at hcr
      simp only [Option.some_inj, Prod.mk.injEq] at hcr
      rw [← hcr.1] at hr
      rcases writeChunksBuffered_mem _ _ _ _ _ hr with h3 | h3
      · exact hinv r h3
      · exact chunkify_size_le template CHUNK_SIZE_MAX _ h3
    · rw [if_neg hty] at hcr
      exact absurd hcr (by simp)

/-- Witness for C7: the size invariant propagated through a concrete
streaming upsert on the created document. -/
theorem C7_witness :
    (∀ r ∈ wikiS0.versions, r.src.length ≤ CHUNK_SIZE_MAX) ∧
      (∀ r ∈ (wikiS0.upsert "w" [1, 2, 3] none 6).versions,
        r.src.length ≤ CHUNK_SIZE_MAX) :=
  ⟨by decide,
   (C7_chunk_size_invariant wikiS0 "w" "t" "n" "tw5" [1, 2, 3] [] none 6 6
     (by decide)).1⟩

/-- `_initTables` never touches the `wikis` index table. -/
theorem initTables_wikis (s : TenantState) (t : String) :
    (s.initTables t).1.wikis = s.wikis := by
  unfold TenantState.initTables
  by_cases hb : s.tenantId ≠ ""
  · rw [if_pos hb]
    by_cases hm : s.tenantId ≠ t
    · rw [if_pos hm]
    · rw [if_neg hm]
  · rw [if_neg hb]

/-- `_initTables` succeeds whenever the actor is unbound or already bound to
the presented tenant id. -/
theorem initTables_ok (s : TenantState) (t : String)
    (h : s.tenantId = "" ∨ s.tenantId = t) : (s.initTables t).2 = true := by
  unfold TenantState.initTables
  rcases h with h | h
  · rw [if_neg (by simp [h])]
  · by_cases hb : s.tenantId ≠ ""
    · rw [if_pos hb, if_neg (by simp [h])]
    · rw [if_neg hb]

/-- C8: the first successful initialization of a tenant actor permanently
binds it to the presented tenant id (and records the `tenant_info` row);
afterwards, any `_initTables` — and hence any `createWiki` — presenting a
different tenant id fails with the fatal wrong-tenant error, and the failing
call changes neither the bound tenant id nor any stored row. -/
theorem C8_tenant_claim (s : TenantState) (t t2 : String) :
    (s.tenantId = "" →
      ((s.initTables t).1.tenantId = t ∧ (s.initTables t).2 = true ∧
       (s.initTables t).1.tenantInfo
         = insertTenantInfoNoConflict s.tenantInfo (t, "\x7b\x7d") ∧
       (t ≠ "" → ∀ t3, t3 ≠ t → (s.initTables t).1.initTables t3
         = ((s.initTables t).1, false)))) ∧
    (s.tenantId ≠ "" → t2 ≠ s.tenantId → s.initTables t2 = (s, false)) ∧
    (s.tenantId ≠ "" → t2 ≠ s.tenantId →
      ∀ (ws : WikiState) (name wikiType wikiId : String)
        (tpl : Option Bytes) (now : Nat),
        s.createWiki ws t2 name wikiType wikiId tpl now = (s, ws, false)) := by
  refine ⟨?_, ?_, ?_⟩
  · intro hub
    have hstep : s.initTables t
        = ({ s with
              tenantInfo := insertTenantInfoNoConflict s.tenantInfo (t, "\x7b\x7d")
              tenantId := t }, true) := by
      unfold TenantState.initTables
      rw [if_neg (by simp [hub])]
    refine ⟨by rw [hstep], by rw [hstep], by rw [hstep], ?_⟩
    intro ht t3 ht3
    rw [hstep]
    unfold TenantState.initTables
    rw [if_pos (by simpa using ht), if_pos (by simpa using (Ne.symm ht3))]
  · intro hb hm
    unfold TenantState.initTables
    rw [if_pos hb, if_pos (by simpa using (Ne.symm hm))]
  · intro hb hm ws name wikiType wikiId tpl now
    have hfail : s.initTables t2 = (s, false) := by
      unfold TenantState.initTables
      rw [if_pos hb, if_pos (by simpa using (Ne.symm hm))]
    unfold TenantState.createWiki
    rw [hfail]
    simp

/-- Witness for C8: binding a fresh tenant actor and the rejection of a
different tenant id afterwards. -/
theorem C8_witness :
    ((⟨"", [], []⟩ : TenantState).tenantId = "") ∧
      (((⟨"", [], []⟩ : TenantState).initTables "T1").1.tenantId = "T1" ∧
       ((⟨"", [], []⟩ : TenantState).initTables "T1").2 = true ∧
       ((⟨"", [], []⟩ : TenantState).initTables "T1").1.tenantInfo
         = insertTenantInfoNoConflict [] ("T1", "\x7b\x7d") ∧
       ("T1" ≠ "" → ∀ t3, t3 ≠ "T1" →
         (((⟨"", [], []⟩ : TenantState).initTables "T1").1.initTables t3)
           = ((((⟨"", [], []⟩ : TenantState)).initTables "T1").1, false))) :=
  ⟨by decide, (C8_tenant_claim ⟨"", [], []⟩ "T1" "x").1 (by decide)⟩

/-- C9: `createWiki` inserts the tenant-index row only after the Document
Actor's `create` has returned success: when `create` throws (unrecognized
wikiType, failed template fetch, or any other failure), no index row for the
freshly allocated wiki id is written and a later `list` does not contain it;
when `create` succeeds, exactly the index row carrying its `createdAtMs` is
inserted. -/
theorem C9_no_orphan_index (s : TenantState) (ws : WikiState)
    (tenantId name wikiType wikiId : String) (tpl : Option Bytes) (now : Nat)
    (hok : s.tenantId = "" ∨ s.tenantId = tenantId)
    (hfresh : ∀ r ∈ s.wikis, r.wikiId ≠ wikiId) :
    (ws.create tenantId wikiId name wikiType tpl now = none →
      (s.createWiki ws tenantId name wikiType wikiId tpl now).2.2 = false ∧
      (∀ r ∈ (s.createWiki ws tenantId name wikiType wikiId tpl now).1.wikis,
        r.wikiId ≠ wikiId) ∧
      (∀ r ∈ (s.createWiki ws tenantId name wikiType wikiId tpl now).1.list,
        r.wikiId ≠ wikiId)) ∧
    (wikiType ≠ "tw5" → ws.create tenantId wikiId name wikiType tpl now = none) ∧
    (tpl = none → ws.create tenantId wikiId name wikiType tpl now = none) ∧
    (∀ ws2 cAt, ws.create tenantId wikiId name wikiType tpl now = some (ws2, cAt) →
      s.createWiki ws tenantId name wikiType wikiId tpl now =
        ({ (s.initTables tenantId).1 with
            wikis := insertOrReplaceWiki (s.initTables tenantId).1.wikis
              ⟨wikiId, tenantId, name, wikiType, cAt⟩ }, ws2, true)) := by
  have hib : (s.initTables tenantId).2 = true := initTables_ok s tenantId hok
  refine ⟨?_, ?_, ?_, ?_⟩
  · intro hcr
    have hshape : s.createWiki ws tenantId name wikiType wikiId tpl now
        = ((s.initTables tenantId).1, ws, false) := by
      simp only [TenantState.createWiki]
      rw [hib]
      simp only [if_true, hcr]
    rw [hshape]
    refine ⟨rfl, ?_, ?_⟩
    · intro r hr
      rw [initTables_wikis] at hr
      exact hfresh r hr
    · intro r hr
      unfold TenantState.list at hr
      by_cases hb : (s.initTables tenantId).1.tenantId = ""
      · rw [if_pos hb] at hr
        simp at hr
      · rw [if_neg hb] at hr
        rw [initTables_wikis] at hr
        exact hfresh r hr
  · intro hty
    unfold WikiState.create
    rw [if_neg hty]
  · intro htpl
    unfold WikiState.create
    rw [htpl]
    by_cases hty : wikiType = "tw5"
    · rw [if_pos hty]
    · rw [if_neg hty]
  · intro ws2 cAt hcr
    simp only [TenantState.createWiki]
    rw [hib]
    simp only [if_true, hcr]

/-- Witness for C9: a create with an unrecognized wikiType registers
nothing. -/
theorem C9_witness :
    ((⟨"", [], []⟩ : TenantState).tenantId = "" ∨
      (⟨"", [], []⟩ : TenantState).tenantId = "T1") ∧
    (∀ r ∈ (⟨"", [], []⟩ : TenantState).wikis, r.wikiId ≠ "id9") ∧
    (wikiEmpty.create "T1" "id9" "Notes" "bogus" (some [1]) 3 = none) ∧
    ((⟨"", [], []⟩ : TenantState).createWiki wikiEmpty "T1" "Notes" "bogus"
        "id9" (some [1]) 3).2.2 = false ∧
    (∀ r ∈ ((⟨"", [], []⟩ : TenantState).createWiki wikiEmpty "T1" "Notes"
        "bogus" "id9" (some [1]) 3).1.list, r.wikiId ≠ "id9") := by
  have h := C9_no_orphan_index ⟨"", [], []⟩ wikiEmpty "T1" "Notes" "bogus"
    "id9" (some [1]) 3 (Or.inl rfl) (by decide)
  have hcr := h.2.1 (by decide)
  exact ⟨Or.inl rfl, by decide, hcr, (h.1 hcr).1, (h.1 hcr).2.2⟩

/-- Membership in an ascending insert. -/
theorem mem_insertAsc (a x : Nat) : ∀ l : List Nat, x ∈ insertAsc a l ↔ x = a ∨ x ∈ l := by
  intro l
  induction l with
  | nil => simp [insertAsc]
  | cons y ys ih =>
    rw [insertAsc]
    by_cases hle : a ≤ y
    · simp [hle]
    · simp only [if_neg hle, List.mem_cons, ih]
      tauto

/-- Ascending sort preserves membership. -/
theorem mem_sortAsc (x : Nat) : ∀ l : List Nat, x ∈ sortAsc l ↔ x ∈ l := by
  intro l
  induction l with
  | nil => simp [sortAsc]
  | cons y ys ih => rw [sortAsc, mem_insertAsc]; simp [ih]

/-- Ascending insert preserves sortedness. -/
theorem sorted_insertAsc (a : Nat) :
    ∀ l : List Nat, l.Pairwise (· ≤ ·) → (insertAsc a l).Pairwise (· ≤ ·) := by
  intro l
  induction l with
  | nil => intro _; simp [insertAsc]
  | cons y ys ih =>
    intro h
    rcases List.pairwise_cons.mp h with ⟨hy, hys⟩
    rw [insertAsc]
    by_cases hle : a ≤ y
    · rw [if_pos hle]
      refine List.pairwise_cons.mpr ⟨?_, h⟩
      intro b hb
      rcases List.mem_cons.mp hb with rfl | hb2
      · exact hle
      · exact Nat.le_trans hle (hy b hb2)
    · rw [if_neg hle]
      refine List.pairwise_cons.mpr ⟨?_, ih hys⟩
      intro b hb
      rcases (mem_insertAsc a b ys).mp hb with rfl | hb2
      · exact Nat.le_of_not_le hle
      · exact hy b hb2

/-- The ascending sort really is sorted. -/
theorem sorted_sortAsc : ∀ l : List Nat, (sortAsc l).Pairwise (· ≤ ·) := by
  intro l
  induction l with
  | nil => simp [sortAsc]
  | cons y ys ih => rw [sortAsc]; exact sorted_insertAsc y (sortAsc ys) ih

/-- In a sorted list every element is bounded by the last one. -/
theorem sorted_le_getLast :
    ∀ l : List Nat, l.Pairwise (· ≤ ·) → ∀ d, ∀ x ∈ l, x ≤ l.getLast?.getD d := by
  intro l
  induction l with
  | nil => intro _ d x hx; simp at hx
  | cons y ys ih =>
    intro h d x hx
    rcases List.pairwise_cons.mp h with ⟨hy, hys⟩
    cases ys with
    | nil =>
      rcases List.mem_singleton.mp hx with rfl
      simp
    | cons z zs =>
      have hlast : (y :: z :: zs).getLast? = (z :: zs).getLast? := by
        simp [List.getLast?]
      rw [hlast]
      rcases List.mem_cons.mp hx with rfl | hx2
      · exact Nat.le_trans (hy z (List.mem_cons_self z zs))
          (ih hys d z (List.mem_cons_self z zs))
      · exact ih hys d x hx2

/-- Closed form of the pending-migration runner when every migration's
statements succeed: everything pending is applied in order and the mark
lands on the last applied id. -/
theorem runPending_true :
    ∀ (l : List Nat) (s : MigrationsState),
      runPending (fun _ => true) l s = (⟨l.getLast?.getD s.lastAppliedId⟩, l) := by
  intro l
  induction l with
  | nil => intro s; rfl
  | cons id rest ih =>
    intro s
    rw [runPending]
    simp only [if_true, ih ⟨id⟩]
    cases rest with
    | nil => rfl
    | cons z zs => simp [List.getLast?]

/-- A failure of the first pending migration leaves the state unchanged and
applies nothing. -/
theorem runPending_fail (succeeds : Nat → Bool) (p : Nat) (rest : List Nat)
    (s : MigrationsState) (h : succeeds p = false) :
    runPending succeeds (p :: rest) s = (s, []) := by
  rw [runPending]
  simp [h]

/-- C10: `runAll()` applies exactly the migrations whose id exceeds the
stored high-water mark, in ascending id order, advancing the mark to each
applied id only on success (a failure of the first pending migration leaves
the state untouched); and a second consecutive `runAll` on the resulting
fully-migrated state applies nothing and performs no write. -/
theorem C10_runAll (migrations : List SchemaMigration) (s : MigrationsState)
    (succeeds : Nat → Bool) :
    ((runAll migrations (fun _ => true) s).2
        = sortAsc ((migrations.map (fun m => m.idMonotonicInc)).filter
            (fun id => decide (s.lastAppliedId < id))) ∧
     (∀ id ∈ (runAll migrations (fun _ => true) s).2,
        s.lastAppliedId < id ∧ id ∈ migrations.map (fun m => m.idMonotonicInc)) ∧
     ((runAll migrations (fun _ => true) s).2).Pairwise (· ≤ ·)) ∧
    (∀ p rest, sortAsc ((migrations.map (fun m => m.idMonotonicInc)).filter
          (fun id => decide (s.lastAppliedId < id))) = p :: rest →
        succeeds p = false → runAll migrations succeeds s = (s, [])) ∧
    (runAll migrations (fun _ => true)
        (runAll migrations (fun _ => true) s).1
      = ((runAll migrations (fun _ => true) s).1, [])) := by
  refine ⟨⟨?_, ?_, ?_⟩, ?_, ?_⟩
  · unfold runAll
    rw [runPending_true]
  · intro id hid
    unfold runAll at hid
    rw [runPending_true] at hid
    simp only at hid
    have h2 := (mem_sortAsc id _).mp hid
    rcases List.mem_filter.mp h2 with ⟨hmem, hcond⟩
    exact ⟨of_decide_eq_true hcond, hmem⟩
  · unfold runAll
    rw [runPending_true]
    exact sorted_sortAsc _
  · intro p rest hsort hfail
    unfold runAll
    rw [hsort]
    exact runPending_fail succeeds p rest s hfail
  · have hmark : ∀ id2 ∈ migrations.map (fun m => m.idMonotonicInc),
        id2 ≤ (runAll migrations (fun _ => true) s).1.lastAppliedId := by
      intro id2 hid2
      unfold runAll
      rw [runPending_true]
      simp only
      by_cases hgt : s.lastAppliedId < id2
      · apply sorted_le_getLast _ (sorted_sortAsc _)
        rw [mem_sortAsc]
        exact List.mem_filter.mpr ⟨hid2, by simp [hgt]⟩
      · have hle : id2 ≤ s.lastAppliedId := Nat.le_of_not_lt hgt
        cases hlast : (sortAsc ((migrations.map (fun m => m.idMonotonicInc)).filter
            (fun id => decide (s.lastAppliedId < id)))).getLast? with
        | none => simpa [hlast] using hle
        | some m =>
          have hm : m ∈ sortAsc ((migrations.map (fun m => m.idMonotonicInc)).filter
              (fun id => decide (s.lastAppliedId < id))) := by
            rcases List.mem_getLast?_eq_getLast hlast with ⟨hne, rfl⟩
            exact List.getLast_mem hne
          rw [mem_sortAsc] at hm
          rcases List.mem_filter.mp hm with ⟨_, hcond⟩
          have := of_decide_eq_true hcond
          simp only [hlast, Option.getD_some]
          omega
    have hnil : (migrations.map (fun m => m.idMonotonicInc)).filter
        (fun id => decide ((runAll migrations (fun _ => true) s).1.lastAppliedId < id))
        = [] := by
      apply List.filter_eq_nil_iff.mpr
      intro id2 hid2
      simp only [decide_eq_true_eq, Nat.not_lt]
      exact hmark id2 hid2
    conv in runAll migrations (fun _ => true)
        (runAll migrations (fun _ => true) s).1 => rw [runAll]
    rw [hnil]
    rfl

/-- Witness for C10: two migrations pending on a fresh actor, applied in
ascending order, with the second run a no-op. -/
theorem C10_witness :
    (runAll [⟨1, "initial version", "sql1"⟩, ⟨2, "add timestamp", "sql2"⟩]
        (fun _ => true) ⟨0⟩).2
      = sortAsc ((([⟨1, "initial version", "sql1"⟩,
          ⟨2, "add timestamp", "sql2"⟩] : List SchemaMigration).map
            (fun m => m.idMonotonicInc)).filter (fun id => decide (0 < id))) ∧
    (runAll [⟨1, "initial version", "sql1"⟩, ⟨2, "add timestamp", "sql2"⟩]
        (fun _ => true)
        (runAll [⟨1, "initial version", "sql1"⟩, ⟨2, "add timestamp", "sql2"⟩]
          (fun _ => true) ⟨0⟩).1)
      = ((runAll [⟨1, "initial version", "sql1"⟩, ⟨2, "add timestamp", "sql2"⟩]
          (fun _ => true) ⟨0⟩).1, []) :=
  ⟨(C10_runAll [⟨1, "initial version", "sql1"⟩, ⟨2, "add timestamp", "sql2"⟩]
      ⟨0⟩ (fun _ => true)).1.1,
   (C10_runAll [⟨1, "initial version", "sql1"⟩, ⟨2, "add timestamp", "sql2"⟩]
      ⟨0⟩ (fun _ => true)).2.2⟩

end Tiddlyflare
